import Mathlib

/-!
Verification development for the RWA chatbot indexing and search pipeline.

Shallow embedding of the core pipeline of the repository:
ingestion (Tableau REST client), normalization (`src/tableau/normalize.py`,
`src/tableau/enhanced_client.py`), quality gating
(`src/tableau/quality_checks.py`), persistence (`src/database/store.py`),
embedding generation (`src/search/embed.py`) and hybrid search
(`src/search/semantic_search.py`).

Modelling conventions:
* Python strings are `String`; character-level operations (`str.strip`,
  `str.lower`, `re.sub(r"\s+", " ", ...)`) work on `List Char`, with `\s`
  read as the four ASCII whitespace characters space, tab, newline and
  carriage return, and `str.lower` as the ASCII `Char.toLower`.
* JSON/XML payload fields are `Option`-valued: `none` models an absent key,
  matching `dict.get`; the upstream XML-to-dict conversion produces only
  strings, lists and dicts, never `None` values.
* The PostgreSQL table `chatbot.objects` is a `List Row`; its unique index
  on `(site_id, object_type, object_id)` is the `Nodup` invariant proved
  below, and `now()` is an explicit `Nat` timestamp parameter.
* External services (the sentence-transformer model, PostgreSQL full-text
  ranking) are parameters of the search model; stored and query embeddings
  are unit-normalized by the model (`normalize_embeddings=True`), so the
  pgvector cosine distance `a <=> b` is modelled exactly as `1 - dot a b`
  over `ℚ`.
* Python exceptions in external calls are modelled by explicit failure
  flags / `Option` results; functions that catch all exceptions are total.
-/

namespace RWA

/-! ### Character and whitespace utilities -/

/-- Whitespace test used by `str.strip` / `re.sub(r"\s+", " ", ...)`,
restricted to the four ASCII whitespace characters. -/
def isWS (c : Char) : Bool :=
  c = ' ' || c = '\t' || c = '\n' || c = '\r'

/-- Model of `re.sub(r"\s+", " ", text)`: every maximal run of whitespace
characters is replaced by a single space.  The boolean flag records whether
the previous character belonged to a whitespace run. -/
def collapseWS : Bool → List Char → List Char
  | _, [] => []
  | prevWs, c :: rest =>
    if isWS c then
      if prevWs then collapseWS true rest else ' ' :: collapseWS true rest
    else c :: collapseWS false rest

/-- Model of `str.strip()` applied from the left. -/
def trimLeft (cs : List Char) : List Char := cs.dropWhile isWS

/-- Model of `str.strip()`: drop whitespace from both ends. -/
def trimChars (cs : List Char) : List Char :=
  ((trimLeft cs).reverse.dropWhile isWS).reverse

/-- Model of `str.lower()` (ASCII case mapping). -/
def lowerChars (cs : List Char) : List Char := cs.map Char.toLower

/-- String version of `str.strip()`. -/
def pyStrip (s : String) : String := String.mk (trimChars s.data)

/-- The `" \n "` separator used by `" \n ".join(...)` in `to_text_blob`. -/
def sepChars : List Char := [' ', '\n', ' ']

/-- Model of `" ".join(xs)`. -/
def joinSpace (xs : List String) : String := String.intercalate " " xs

/-! ### Record normalizer: `src/tableau/normalize.py` -/

/-- The seven parts assembled by `to_text_blob` before joining:
title, description, joined tags, joined fields, project, owner and the
type-specific additional context sentence. -/
def textParts (title desc : String) (tags fields : List String)
    (project owner additional : String) : List String :=
  [title, desc, joinSpace tags, joinSpace fields, project, owner, additional]

/-- Model of `normalize.to_text_blob`: keep the truthy (non-empty) parts,
strip each, join with `" \n "`, collapse whitespace runs and lowercase. -/
def to_text_blob (title desc : String) (tags fields : List String)
    (project owner additional : String) : String :=
  String.mk (lowerChars (collapseWS false
    (List.intercalate sepChars
      (((textParts title desc tags fields project owner additional).filter
          (fun p => p ≠ "")).map (fun p => trimChars p.data)))))

/-- Modelled from the spec sentence
"text_blob = lowercase(collapse-whitespace(join(non-empty of [...])))":
join the non-empty parts with single spaces, collapse and trim whitespace,
and lowercase.  This is the reference definition the code is compared
against, not a translation of the code. -/
def textBlobSpec (title desc : String) (tags fields : List String)
    (project owner additional : String) : String :=
  String.mk (lowerChars (trimChars (collapseWS false
    (List.intercalate [' ']
      (((textParts title desc tags fields project owner additional).filter
          (fun p => p ≠ "")).map String.data)))))

/-! ### Canonical records and the persisted row shape -/

/-- A normalized record as produced by the record builders and consumed by
the quality gate and the store (the dict shape fed to `UPSERT_SQL`).
`project_name` and `owner` are `Option` because the enhanced-client
normalization path can produce `None` for them. -/
structure Rec where
  site_id : String
  object_type : String
  object_id : String
  title : String
  description : String
  tags : List String
  fields : List String
  project_name : Option String
  owner : Option String
  url : String
  deep_link_url : String
  text_blob : String
  deriving DecidableEq, Repr

/-- A persisted row of `chatbot.objects`.  `embedding` is filled later by
the embedding generator (two-phase lifecycle); `updated_at` is the `now()`
timestamp of the last insert/overwrite. -/
structure Row where
  site_id : String
  object_type : String
  object_id : String
  title : String
  description : String
  tags : List String
  fields : List String
  project_name : Option String
  owner : Option String
  url : String
  text_blob : String
  embedding : Option (List ℚ)
  updated_at : Nat
  deriving DecidableEq, Repr

/-- The conflict key of `UPSERT_SQL`: `(site_id, object_type, object_id)`. -/
def rowKey (r : Row) : String × String × String :=
  (r.site_id, r.object_type, r.object_id)

/-- Key of a record to be upserted. -/
def recKey (r : Rec) : String × String × String :=
  (r.site_id, r.object_type, r.object_id)

/-- Row created by the INSERT branch of `UPSERT_SQL`: all listed columns
from the record, `updated_at = now()`; `embedding` is not an insert column,
so it starts NULL. -/
def newRow (now : Nat) (r : Rec) : Row :=
  { site_id := r.site_id
    object_type := r.object_type
    object_id := r.object_id
    title := r.title
    description := r.description
    tags := r.tags
    fields := r.fields
    project_name := r.project_name
    owner := r.owner
    url := r.url
    text_blob := r.text_blob
    embedding := none
    updated_at := now }

/-- The `ON CONFLICT ... DO UPDATE SET` branch of `UPSERT_SQL`: overwrite
title, description, tags, fields, project_name, owner, url and text_blob
with the excluded record's values and refresh `updated_at`; the key columns
are unchanged and `embedding` is not in the SET list. -/
def overwriteRow (now : Nat) (r : Rec) (old : Row) : Row :=
  { old with
    title := r.title
    description := r.description
    tags := r.tags
    fields := r.fields
    project_name := r.project_name
    owner := r.owner
    url := r.url
    text_blob := r.text_blob
    updated_at := now }

/-- One execution of `UPSERT_SQL` against the table: update the (unique)
conflicting row if the key is present, otherwise append a fresh row. -/
def upsertOne (now : Nat) (r : Rec) : List Row → List Row
  | [] => [newRow now r]
  | row :: rest =>
    if rowKey row = recKey r then overwriteRow now r row :: rest
    else row :: upsertOne now r rest

/-- Model of `store.upsert_records`: execute the upsert for each record in
order inside one transaction. -/
def upsert_records (now : Nat) (records : List Rec) (db : List Row) :
    List Row :=
  records.foldl (fun d r => upsertOne now r d) db

/-- Slicing of a list into consecutive batches, as done by
`range(0, total_records, batch_size)`; written so that a batch always
contains at least one element (the Python code is only called with a
positive `batch_size`). -/
def chunks (batch_size : Nat) : List α → List (List α)
  | [] => []
  | x :: xs => (x :: xs.take (batch_size - 1)) :: chunks batch_size (xs.drop (batch_size - 1))
termination_by l => l.length
decreasing_by
  simp only [List.length_drop, List.length_cons]
  omega

/-- Model of `store.upsert_records_batch`: upsert the records in
consecutive batches (each batch its own transaction; a failed batch is
skipped, which the total model renders as every batch succeeding). -/
def upsert_records_batch (now : Nat) (records : List Rec)
    (batch_size : Nat) (db : List Row) : List Row :=
  (chunks batch_size records).foldl (fun d b => upsert_records now b d) db

/-! ### Quality gate: `src/tableau/quality_checks.py` -/

/-- Issues produced by `QualityChecker.check_site_isolation`: one message
per record with a missing or mismatching `site_id`. -/
def siteIsolationIssues (site_id : String) (records : List Rec) :
    List String :=
  records.enum.filterMap fun p =>
    let i := p.1
    if p.2.site_id = "" then some s!"Record {i}: Missing site_id"
    else if p.2.site_id ≠ site_id then
      some s!"Record {i}: Incorrect site_id"
    else none

/-- Boolean result of `check_site_isolation`: passes when no issue was
collected. -/
def check_site_isolation (site_id : String) (records : List Rec) : Bool :=
  (siteIsolationIssues site_id records).isEmpty

/-- Issues produced by `QualityChecker.check_required_fields`, in the
field order `object_id, title, object_type, text_blob`; a field is
missing when its value is falsy (the empty string). -/
def requiredFieldIssues (records : List Rec) : List String :=
  records.enum.flatMap fun p =>
    let i := p.1
    (if p.2.object_id = "" then
        [s!"Record {i}: Missing required field object_id"] else []) ++
    (if p.2.title = "" then
        [s!"Record {i}: Missing required field title"] else []) ++
    (if p.2.object_type = "" then
        [s!"Record {i}: Missing required field object_type"] else []) ++
    (if p.2.text_blob = "" then
        [s!"Record {i}: Missing required field text_blob"] else [])

/-- Boolean result of `check_required_fields`. -/
def check_required_fields (records : List Rec) : Bool :=
  (requiredFieldIssues records).isEmpty

/-- Statistics of `check_description_quality`. -/
structure DescStats where
  total_records : Nat
  with_descriptions : Nat
  without_descriptions : Nat
  empty_descriptions : Nat
  short_descriptions : Nat
  long_descriptions : Nat
  deriving DecidableEq, Repr

/-- Per-record step of `check_description_quality`: a falsy description
counts as absent, a whitespace-only one as empty; only records with a real
description are length-classified (short `< 10`, long `> 500`). -/
def descStep (s : DescStats) (r : Rec) : DescStats :=
  let d := r.description
  if d = "" then { s with without_descriptions := s.without_descriptions + 1 }
  else if pyStrip d = "" then
    { s with empty_descriptions := s.empty_descriptions + 1 }
  else
    let s := { s with with_descriptions := s.with_descriptions + 1 }
    if d.length < 10 then
      { s with short_descriptions := s.short_descriptions + 1 }
    else if d.length > 500 then
      { s with long_descriptions := s.long_descriptions + 1 }
    else s

/-- Model of `check_description_quality`: the statistics plus the advisory
warnings it appends.  The Python float thresholds `total * 0.5` and
`total * 0.3` are rendered as the exact rational comparisons
`2 * x > total` and `10 * x > 3 * total`. -/
def check_description_quality (records : List Rec) :
    DescStats × List String :=
  let s0 : DescStats :=
    { total_records := records.length
      with_descriptions := 0
      without_descriptions := 0
      empty_descriptions := 0
      short_descriptions := 0
      long_descriptions := 0 }
  let stats := records.foldl descStep s0
  let w1 :=
    if 2 * stats.without_descriptions > stats.total_records then
      ["High percentage of records without descriptions"] else []
  let w2 :=
    if 10 * stats.short_descriptions > 3 * stats.total_records then
      ["Many records have very short descriptions"] else []
  (stats, w1 ++ w2)

/-- Statistics of `check_url_quality`. -/
structure UrlStats where
  total_records : Nat
  with_urls : Nat
  without_urls : Nat
  with_deep_links : Nat
  without_deep_links : Nat
  malformed_urls : Nat
  deriving DecidableEq, Repr

/-- The three accepted URL shapes of `check_url_quality`. -/
def urlWellFormed (url : String) : Bool :=
  url.startsWith "views/" || url.startsWith "workbooks/" ||
    url.startsWith "datasources/"

/-- Per-record step of `check_url_quality`. -/
def urlStep (s : UrlStats) (r : Rec) : UrlStats :=
  let s :=
    if r.url = "" then { s with without_urls := s.without_urls + 1 }
    else
      let s := { s with with_urls := s.with_urls + 1 }
      if urlWellFormed r.url then s
      else { s with malformed_urls := s.malformed_urls + 1 }
  if r.deep_link_url ≠ "" then
    { s with with_deep_links := s.with_deep_links + 1 }
  else { s with without_deep_links := s.without_deep_links + 1 }

/-- Model of `check_url_quality`: statistics plus advisory warnings
(`total * 0.1` rendered exactly as `10 * x > total`). -/
def check_url_quality (records : List Rec) : UrlStats × List String :=
  let s0 : UrlStats :=
    { total_records := records.length
      with_urls := 0
      without_urls := 0
      with_deep_links := 0
      without_deep_links := 0
      malformed_urls := 0 }
  let stats := records.foldl urlStep s0
  let w1 := if stats.malformed_urls > 0 then ["Found malformed URLs"] else []
  let w2 :=
    if 10 * stats.without_deep_links > stats.total_records then
      ["Many records without deep links"] else []
  (stats, w1 ++ w2)

/-- Statistics of `check_text_blob_quality`; `average_length` is the
float division rendered over `ℚ`. -/
structure BlobStats where
  total_records : Nat
  empty_text_blobs : Nat
  short_text_blobs : Nat
  long_text_blobs : Nat
  total_length : Nat
  average_length : ℚ
  deriving DecidableEq, Repr

/-- Per-record step of `check_text_blob_quality` (short `< 20`,
long `> 2000`). -/
def blobStep (s : BlobStats) (r : Rec) : BlobStats :=
  let tb := r.text_blob
  if tb = "" then { s with empty_text_blobs := s.empty_text_blobs + 1 }
  else
    let s := { s with total_length := s.total_length + tb.length }
    if tb.length < 20 then
      { s with short_text_blobs := s.short_text_blobs + 1 }
    else if tb.length > 2000 then
      { s with long_text_blobs := s.long_text_blobs + 1 }
    else s

/-- Model of `check_text_blob_quality`: statistics plus advisory warnings
(`total * 0.2` rendered exactly as `5 * x > total`). -/
def check_text_blob_quality (records : List Rec) :
    BlobStats × List String :=
  let s0 : BlobStats :=
    { total_records := records.length
      empty_text_blobs := 0
      short_text_blobs := 0
      long_text_blobs := 0
      total_length := 0
      average_length := 0 }
  let stats := records.foldl blobStep s0
  let stats :=
    if stats.total_records > 0 then
      { stats with average_length :=
          (stats.total_length : ℚ) / (stats.total_records : ℚ) }
    else stats
  let w1 :=
    if stats.empty_text_blobs > 0 then
      ["Found records with empty text blobs"] else []
  let w2 :=
    if 5 * stats.short_text_blobs > stats.total_records then
      ["Many records have short text blobs"] else []
  (stats, w1 ++ w2)

/-- Result shape of `QualityChecker.run_all_checks`. -/
structure QualityResults where
  site_isolation : Bool
  required_fields : Bool
  description_quality : DescStats
  url_quality : UrlStats
  text_blob_quality : BlobStats
  issues : List String
  warnings : List String
  overall_quality : Bool
  deriving DecidableEq, Repr

/-- Model of `QualityChecker.run_all_checks` on a fresh checker for the
given target site: run the two blocking checks (whose issues accumulate in
`quality_issues`) and the three advisory checks (whose findings accumulate
in `warnings`), and set `overall_quality` to the conjunction of the two
critical checks only.  The constructor's `site_name` is never used by any
check. -/
def run_all_checks (site_id : String) (records : List Rec) :
    QualityResults :=
  let si := siteIsolationIssues site_id records
  let rf := requiredFieldIssues records
  let dq := check_description_quality records
  let uq := check_url_quality records
  let bq := check_text_blob_quality records
  { site_isolation := si.isEmpty
    required_fields := rf.isEmpty
    description_quality := dq.1
    url_quality := uq.1
    text_blob_quality := bq.1
    issues := si ++ rf
    warnings := dq.2 ++ uq.2 ++ bq.2
    overall_quality := si.isEmpty && rf.isEmpty }

/-! ### Indexing run: `index_site.py` -/

/-- The `max_objects` truncation of `index_site`
(`if max_objects and len(records) > max_objects`); a zero cap is falsy in
Python and disables the truncation. -/
def capRecords (max_objects : Option Nat) (records : List Rec) :
    List Rec :=
  match max_objects with
  | some m => if m ≠ 0 ∧ records.length > m then records.take m else records
  | none => records

/-- Model of the persistence phase of `index_site` (after metadata has
been fetched and prepared): empty record sets return early; otherwise the
records are capped, optionally quality-gated, and upserted in batches of
50.  Returns the resulting table and the run's error count; a blocked run
returns before any write with one error counted. -/
def index_site (enable_quality_checks : Bool) (site_id : String)
    (max_objects : Option Nat) (now : Nat) (records : List Rec)
    (db : List Row) : List Row × Nat :=
  if records.isEmpty then (db, 0)
  else
    let records := capRecords max_objects records
    if enable_quality_checks then
      let q := run_all_checks site_id records
      if q.overall_quality = false then (db, 1)
      else (upsert_records_batch now records 50 db, 0)
    else (upsert_records_batch now records 50 db, 0)

/-! ### Embedding generator: `src/search/embed.py` -/

/-- Model of `embed.get_unembedded_records`: rows with NULL embedding,
most recently updated first; `if limit:` means a zero limit is falsy and
adds no LIMIT clause. -/
def get_unembedded_records (db : List Row) (limit : Option Nat) :
    List Row :=
  let rows := (db.filter (fun r => r.embedding.isNone)).mergeSort
    (fun a b => b.updated_at ≤ a.updated_at)
  match limit with
  | some (n + 1) => rows.take (n + 1)
  | _ => rows

/-! ### Pagination driver: `PaginationHelper.paginate_requests` -/

/-- A source of `N` items served page by page: `fetch_func` instantiated
to the slice of the item list for the requested 1-based page. -/
def pageSlice (items : List α) (page_size page : Nat) : List α :=
  (items.drop ((page - 1) * page_size)).take page_size

/-- The max-pages test `if self.max_pages and page >= self.max_pages`
(a zero cap is falsy and disables the check). -/
def capReached (max_pages : Option Nat) (page : Nat) : Bool :=
  match max_pages with
  | none => false
  | some m => m ≠ 0 && decide (page ≥ m)

/-- The `while True` loop of `paginate_requests`, fetching page `page` and
onwards from the remaining items `rest`: an empty page stops without
accumulating, a short page stops after accumulating, the max-pages cap
stops after accumulating, otherwise continue with the next page.  Returns
the accumulated items and the number of page requests issued. -/
def paginateFrom (page_size : Nat) (max_pages : Option Nat) (page : Nat)
    (rest : List α) : List α × Nat :=
  if _h1 : (rest.take page_size).length = 0 then ([], 1)
  else if _h2 : (rest.take page_size).length < page_size then
    (rest.take page_size, 1)
  else if capReached max_pages page then (rest.take page_size, 1)
  else
    let next := paginateFrom page_size max_pages (page + 1)
      (rest.drop page_size)
    (rest.take page_size ++ next.1, next.2 + 1)
termination_by rest.length
decreasing_by
  simp only [List.length_drop]
  have hl := List.length_take page_size rest
  omega

/-- Model of `PaginationHelper.paginate_requests` over a finite source:
start at page 1. -/
def paginate_requests (page_size : Nat) (max_pages : Option Nat)
    (items : List α) : List α × Nat :=
  paginateFrom page_size max_pages 1 items

/-! ### Hybrid search engine: `src/search/semantic_search.py` -/

/-- Embedding vectors (pgvector values), with float components rendered
over `ℚ`. -/
abbrev Vec := List ℚ

/-- Dot product of two vectors. -/
def dot (a b : Vec) : ℚ := (List.zipWith (· * ·) a b).sum

/-- The pgvector cosine-distance operator `a <=> b` for the
unit-normalized vectors produced by the embedding model
(`normalize_embeddings=True`), under which cosine distance is `1 - dot`. -/
def cosineDistance (a b : Vec) : ℚ := 1 - dot a b

/-- Distance of a row's embedding to the query embedding; rows reaching
this function have a non-null embedding (the `getD` default is outside the
reachable cases). -/
def distOf (qe : Vec) (r : Row) : ℚ :=
  cosineDistance qe (r.embedding.getD [])

/-- Similarity score reported by `_vector_search`:
`1 - (embedding <=> query)`. -/
def simOf (qe : Vec) (r : Row) : ℚ := 1 - distOf qe r

/-- External collaborators of the search engine and their failure modes:
the sentence-transformer `encode` (`none` models a raised exception), the
PostgreSQL full-text primitives `plainto_tsquery` matching and `ts_rank`
scoring, and per-path store availability flags (`false` models a database
exception caught inside the respective helper). -/
structure SearchEnv where
  encode : String → Option Vec
  vector_ok : Bool
  text_ok : Bool
  lex_match : String → String → Bool
  lex_rank : String → String → ℚ

/-- Model of `SemanticSearch._vector_search`: rows with non-null
embedding, ordered by `embedding <=> query` ascending, LIMIT `limit`, then
filtered by `similarity >= threshold`; any store failure degrades to an
empty list. -/
def vector_search (env : SearchEnv) (db : List Row) (qe : Vec)
    (limit : Nat) (threshold : ℚ) : List Row :=
  if env.vector_ok then
    ((((db.filter (fun r => r.embedding.isSome)).mergeSort
        (fun a b => decide (distOf qe a ≤ distOf qe b))).take limit).filter
      (fun r => decide (simOf qe r ≥ threshold)))
  else []

/-- Model of `SemanticSearch._text_search`: rows whose `text_blob` matches
the full-text query, ordered by `ts_rank` descending, LIMIT `limit`; any
store failure degrades to an empty list. -/
def text_search (env : SearchEnv) (db : List Row) (q : String)
    (limit : Nat) : List Row :=
  if env.text_ok then
    (((db.filter (fun r => env.lex_match q r.text_blob)).mergeSort
        (fun a b =>
          decide (env.lex_rank q b.text_blob ≤ env.lex_rank q a.text_blob))).take
      limit)
  else []

/-- Model of `SemanticSearch.search`: a blank query returns nothing;
otherwise embed the query and run the vector search, falling back to the
lexical search when the vector step yields no rows; a raised
embedding-model exception is caught and also falls back to the lexical
search. -/
def search (env : SearchEnv) (db : List Row) (q : String) (limit : Nat)
    (threshold : ℚ) : List Row :=
  if pyStrip q = "" then []
  else
    match env.encode q with
    | none => text_search env db q limit
    | some qe =>
      let results := vector_search env db qe limit threshold
      if results.isEmpty then text_search env db q limit else results

/-! ### Platform client: `src/tableau/client.py` -/

/-- Authentication-relevant state of `TableauClient`: the session token
and site id obtained by `signin`. -/
structure TableauClient where
  server : String
  token : Option String
  site_id : Option String
  deriving DecidableEq, Repr

/-- The message of the `ValueError` raised by every listing method and by
`_headers` when no token is held. -/
def notAuthMsg : String := "Not authenticated. Call signin() first."

/-- Truthiness of `self.token`: a held, non-empty session token. -/
def isAuthenticated (c : TableauClient) : Bool :=
  match c.token with
  | some t => t ≠ ""
  | none => false

/-- The inline pagination loop shared by `list_workbooks`, `list_views`
and `list_datasources`: fetch pages of 100, accumulate, stop when a page
has fewer than 100 items.  Returns the items and the number of HTTP
requests issued. -/
def clientPaginate (rest : List α) : List α × Nat :=
  if _h : (rest.take 100).length < 100 then (rest.take 100, 1)
  else
    let next := clientPaginate (rest.drop 100)
    (rest.take 100 ++ next.1, next.2 + 1)
termination_by rest.length
decreasing_by
  simp only [List.length_drop]
  have hl := List.length_take 100 rest
  omega

/-- Model of `TableauClient.list_workbooks` over a server holding the
given workbook items: raise (return an error) with zero outbound requests
when not authenticated, otherwise page through the items. -/
def list_workbooks (c : TableauClient) (serverItems : List α) :
    Except String (List α) × Nat :=
  if isAuthenticated c then
    let r := clientPaginate serverItems
    (Except.ok r.1, r.2)
  else (Except.error notAuthMsg, 0)

/-- Model of `TableauClient.list_datasources` (same guard and loop shape
as `list_workbooks`, against the datasources endpoint). -/
def list_datasources (c : TableauClient) (serverItems : List α) :
    Except String (List α) × Nat :=
  if isAuthenticated c then
    let r := clientPaginate serverItems
    (Except.ok r.1, r.2)
  else (Except.error notAuthMsg, 0)

/-- Model of `TableauClient.list_views` (same guard and loop shape as
`list_workbooks`, against the views endpoint). -/
def list_views (c : TableauClient) (serverItems : List α) :
    Except String (List α) × Nat :=
  if isAuthenticated c then
    let r := clientPaginate serverItems
    (Except.ok r.1, r.2)
  else (Except.error notAuthMsg, 0)

/-- Model of `TableauClient.list_views_for_workbook`: a single request
after the authentication guard. -/
def list_views_for_workbook (c : TableauClient) (views : List α) :
    Except String (List α) × Nat :=
  if isAuthenticated c then (Except.ok views, 1)
  else (Except.error notAuthMsg, 0)

/-- Model of `TableauClient.get_workbook_details`: a single request after
the authentication guard. -/
def get_workbook_details (c : TableauClient) (detail : α) :
    Except String α × Nat :=
  if isAuthenticated c then (Except.ok detail, 1)
  else (Except.error notAuthMsg, 0)

/-! ### Raw payloads and record builders

Two normalization paths exist in the repository: the GraphQL-shaped
builders of `src/tableau/normalize.py` (`build_workbook_record`,
`build_datasource_record`, `build_view_record`) and the REST-shaped
`EnhancedTableauClient.prepare_objects_for_indexing`, which is the path
`index_site.py` actually runs.  Payload keys are `Option`-valued (`none`
is an absent key). -/

/-- A `tag` entry of a GraphQL payload. -/
structure RawTag where
  name : Option String
  deriving DecidableEq, Repr

/-- An `owner` object of a payload. -/
structure RawOwner where
  name : Option String
  deriving DecidableEq, Repr

/-- A `field` entry of a GraphQL datasource payload; only the name is
used for the flat field list (the structured detail list is carried
through but not persisted by `UPSERT_SQL`). -/
structure RawFieldG where
  name : Option String
  description : Option String
  dataType : Option String
  isNullable : Option Bool
  deriving DecidableEq, Repr

/-- A GraphQL workbook payload as read by `build_workbook_record`. -/
structure RawWorkbookG where
  id : Option String
  name : Option String
  description : Option String
  projectName : Option String
  contentUrl : Option String
  tags : Option (List RawTag)
  owner : Option RawOwner
  deriving DecidableEq, Repr

/-- A GraphQL datasource payload as read by `build_datasource_record`. -/
structure RawDatasourceG where
  id : Option String
  name : Option String
  description : Option String
  projectName : Option String
  contentUrl : Option String
  tags : Option (List RawTag)
  owner : Option RawOwner
  fields : Option (List RawFieldG)
  deriving DecidableEq, Repr

/-- The embedded `workbook` object of a view payload. -/
structure RawWorkbookRef where
  name : Option String
  projectName : Option String
  deriving DecidableEq, Repr

/-- A `datasourceFields` group of a GraphQL view payload. -/
structure RawDSGroup where
  name : Option String
  fields : Option (List RawFieldG)
  deriving DecidableEq, Repr

/-- A GraphQL view payload as read by `build_view_record`. -/
structure RawViewG where
  id : Option String
  name : Option String
  description : Option String
  contentUrl : Option String
  sheetType : Option String
  tags : Option (List RawTag)
  owner : Option RawOwner
  workbook : Option RawWorkbookRef
  datasourceFields : Option (List RawDSGroup)
  deriving DecidableEq, Repr

/-- Model of `normalize.build_workbook_record`: every extracted value
defaults to the empty string (empty list for tags) when missing. -/
def build_workbook_record (site_id : String) (wb : RawWorkbookG) : Rec :=
  let title := wb.name.getD ""
  let desc := wb.description.getD ""
  let tags := (wb.tags.getD []).map (fun t => t.name.getD "")
  let project := wb.projectName.getD ""
  let owner := (wb.owner.map (fun o => o.name.getD "")).getD ""
  { site_id := site_id
    object_type := "workbook"
    object_id := wb.id.getD ""
    title := title
    description := desc
    tags := tags
    fields := []
    project_name := some project
    owner := some owner
    url := wb.contentUrl.getD ""
    deep_link_url := ""
    text_blob := to_text_blob title desc tags [] project owner
      ("workbook " ++ title) }

/-- Flat field-name list of a GraphQL datasource: names of the fields,
keeping only truthy (non-empty) names. -/
def datasourceFieldNames (ds : RawDatasourceG) : List String :=
  ((ds.fields.getD []).map (fun f => f.name.getD "")).filter
    (fun n => n ≠ "")

/-- Model of `normalize.build_datasource_record`. -/
def build_datasource_record (site_id : String) (ds : RawDatasourceG) :
    Rec :=
  let title := ds.name.getD ""
  let desc := ds.description.getD ""
  let tags := (ds.tags.getD []).map (fun t => t.name.getD "")
  let project := ds.projectName.getD ""
  let owner := (ds.owner.map (fun o => o.name.getD "")).getD ""
  let fields := datasourceFieldNames ds
  { site_id := site_id
    object_type := "datasource"
    object_id := ds.id.getD ""
    title := title
    description := desc
    tags := tags
    fields := fields
    project_name := some project
    owner := some owner
    url := ds.contentUrl.getD ""
    deep_link_url := ""
    text_blob := to_text_blob title desc tags fields project owner
      ("datasource " ++ title ++ " with " ++ toString fields.length ++
        " fields") }

/-- Flat field-name list of a GraphQL view: field names of all attached
datasource groups, keeping only truthy names. -/
def viewFieldNames (v : RawViewG) : List String :=
  (v.datasourceFields.getD []).flatMap fun g =>
    ((g.fields.getD []).map (fun f => f.name.getD "")).filter
      (fun n => n ≠ "")

/-- Model of `normalize.build_view_record`: project and workbook name come
from the embedded workbook object, defaulting to the empty string. -/
def build_view_record (site_id : String) (v : RawViewG) : Rec :=
  let title := v.name.getD ""
  let desc := v.description.getD ""
  let tags := (v.tags.getD []).map (fun t => t.name.getD "")
  let project := (v.workbook.map (fun w => w.projectName.getD "")).getD ""
  let workbook_name := (v.workbook.map (fun w => w.name.getD "")).getD ""
  let owner := (v.owner.map (fun o => o.name.getD "")).getD ""
  let fields := viewFieldNames v
  let sheet_type := v.sheetType.getD ""
  { site_id := site_id
    object_type := "view"
    object_id := v.id.getD ""
    title := title
    description := desc
    tags := tags
    fields := fields
    project_name := some project
    owner := some owner
    url := v.contentUrl.getD ""
    deep_link_url := ""
    text_blob := to_text_blob title desc tags fields project owner
      ("view " ++ title ++ " in workbook " ++ workbook_name ++ " type " ++
        sheet_type) }

/-- A `project` object of a REST payload. -/
structure RawProjectR where
  name : Option String
  deriving DecidableEq, Repr

/-- A REST workbook payload as read by
`prepare_objects_for_indexing` (the `tags` field models the `tag` list of
the tags dict; a missing or non-dict `tags` value is `none`). -/
structure RawWorkbookR where
  id : Option String
  name : Option String
  description : Option String
  contentUrl : Option String
  tags : Option (List String)
  project : Option RawProjectR
  owner : Option RawOwner
  deriving DecidableEq, Repr

/-- A REST datasource payload as read by
`prepare_objects_for_indexing`. -/
structure RawDatasourceR where
  id : Option String
  name : Option String
  description : Option String
  contentUrl : Option String
  tags : Option (List String)
  project : Option RawProjectR
  owner : Option RawOwner
  deriving DecidableEq, Repr

/-- A REST view payload as read by `prepare_objects_for_indexing`; the
`workbook` object was stamped on by `fetch_comprehensive_metadata`. -/
structure RawViewR where
  id : Option String
  name : Option String
  description : Option String
  contentUrl : Option String
  tags : Option (List String)
  workbook : Option RawWorkbookRef
  owner : Option RawOwner
  deriving DecidableEq, Repr

/-- Model of `EnhancedTableauClient._create_text_blob`: the same
strip/join/collapse/lowercase pipeline as `to_text_blob` but over six
parts (no additional context sentence), with `None` project/owner turned
into the empty string by `p or ""`. -/
def create_text_blob (title desc : String) (tags fields : List String)
    (project owner : Option String) : String :=
  String.mk (lowerChars (collapseWS false
    (List.intercalate sepChars
      ((([title, desc, joinSpace tags, joinSpace fields, project.getD "",
            owner.getD ""]).filter (fun p => p ≠ "")).map
        (fun p => trimChars p.data)))))

/-- Model of the workbook branch of
`EnhancedTableauClient.prepare_objects_for_indexing`: note that
`project_name` and `owner` are `.get("name")` lookups guarded by the
presence of the parent object, so they are `None`, not the empty string,
when the payload lacks them. -/
def prepare_workbook (site_id : String) (wb : RawWorkbookR) : Rec :=
  { site_id := site_id
    object_type := "workbook"
    object_id := wb.id.getD ""
    title := wb.name.getD ""
    description := wb.description.getD ""
    tags := wb.tags.getD []
    fields := []
    project_name := wb.project.bind (fun p => p.name)
    owner := wb.owner.bind (fun o => o.name)
    url := wb.contentUrl.getD ""
    deep_link_url := ""
    text_blob := create_text_blob (wb.name.getD "") (wb.description.getD "")
      (wb.tags.getD []) [] (wb.project.bind (fun p => p.name))
      (wb.owner.bind (fun o => o.name)) }

/-- Model of the datasource branch of `prepare_objects_for_indexing`. -/
def prepare_datasource (site_id : String) (ds : RawDatasourceR) : Rec :=
  { site_id := site_id
    object_type := "datasource"
    object_id := ds.id.getD ""
    title := ds.name.getD ""
    description := ds.description.getD ""
    tags := ds.tags.getD []
    fields := []
    project_name := ds.project.bind (fun p => p.name)
    owner := ds.owner.bind (fun o => o.name)
    url := ds.contentUrl.getD ""
    deep_link_url := ""
    text_blob := create_text_blob (ds.name.getD "") (ds.description.getD "")
      (ds.tags.getD []) [] (ds.project.bind (fun p => p.name))
      (ds.owner.bind (fun o => o.name)) }

/-- Model of the view branch of `prepare_objects_for_indexing`:
`project_name` comes from the stamped workbook object's `projectName`. -/
def prepare_view (site_id : String) (v : RawViewR) : Rec :=
  { site_id := site_id
    object_type := "view"
    object_id := v.id.getD ""
    title := v.name.getD ""
    description := v.description.getD ""
    tags := v.tags.getD []
    fields := []
    project_name := v.workbook.bind (fun w => w.projectName)
    owner := v.owner.bind (fun o => o.name)
    url := v.contentUrl.getD ""
    deep_link_url := ""
    text_blob := create_text_blob (v.name.getD "") (v.description.getD "")
      (v.tags.getD []) [] (v.workbook.bind (fun w => w.projectName))
      (v.owner.bind (fun o => o.name)) }

/-- Model of `prepare_objects_for_indexing` over already-fetched REST
metadata: workbooks, then datasources, then views. -/
def prepare_objects_for_indexing (site_id : String)
    (workbooks : List RawWorkbookR) (datasources : List RawDatasourceR)
    (views : List RawViewR) : List Rec :=
  workbooks.map (prepare_workbook site_id) ++
    datasources.map (prepare_datasource site_id) ++
    views.map (prepare_view site_id)

/-! ### Proof-support definitions -/

/-- State of the whitespace-run tracker of `collapseWS` after consuming a
character list: the flag is updated to the whitespace status of each
consumed character. -/
def stAfter (b : Bool) : List Char → Bool
  | [] => b
  | c :: cs => stAfter (isWS c) cs

/-- The maximal non-whitespace runs (words) of a character list, in
order.  `collapse`-and-`trim` normalizes any list to its words joined by
single spaces, which is the normal form used to compare the code's and
the spec's text-blob constructions. -/
def wordsOf : List Char → List (List Char)
  | [] => []
  | c :: cs =>
    if isWS c then wordsOf cs
    else
      (c :: cs.takeWhile (fun d => !isWS d)) ::
        wordsOf (cs.dropWhile (fun d => !isWS d))
termination_by cs => cs.length
decreasing_by
  · simp
  · have hsub : List.Sublist (cs.dropWhile (fun d => !isWS d)) cs :=
      List.dropWhile_sublist _
    have := hsub.length_le
    simp only [List.length_cons]
    omega

/-- Test fixture: a well-formed record for the given site, id, title and
text blob. -/
def sampleRec (site oid title blob : String) : Rec :=
  { site_id := site
    object_type := "workbook"
    object_id := oid
    title := title
    description := ""
    tags := []
    fields := []
    project_name := some "p"
    owner := some "o"
    url := "workbooks/x"
    deep_link_url := ""
    text_blob := blob }

/-- Test fixture: a stored row with a populated embedding. -/
def sampleRow (site oid title blob : String) (emb : Option (List ℚ))
    (t : Nat) : Row :=
  { site_id := site
    object_type := "workbook"
    object_id := oid
    title := title
    description := ""
    tags := []
    fields := []
    project_name := some "p"
    owner := some "o"
    url := "workbooks/x"
    text_blob := blob
    embedding := emb
    updated_at := t }

/-- Test fixture: a search environment whose external services all
succeed, with a constant one-dimensional embedding and a full-match
lexical ranking. -/
def sampleEnv : SearchEnv :=
  { encode := fun _ => some [1]
    vector_ok := true
    text_ok := true
    lex_match := fun _ _ => true
    lex_rank := fun _ _ => 0 }

/-- Test fixture: a REST workbook payload with every key absent. -/
def emptyRawWorkbookR : RawWorkbookR :=
  { id := none
    name := none
    description := none
    contentUrl := none
    tags := none
    project := none
    owner := none }

/-! ## General helper lemmas -/

/-- Membership over an enumerated list is membership over the list when
the property only looks at the element. -/
theorem forall_enumFrom {α : Type _} {P : Nat × α → Prop} {Q : α → Prop}
    (hPQ : ∀ n a, P (n, a) ↔ Q a) :
    ∀ (l : List α) (n : Nat),
      (∀ p ∈ List.enumFrom n l, P p) ↔ ∀ r ∈ l, Q r := by
  intro l
  induction l with
  | nil => simp
  | cons a t ih =>
    intro n
    simp only [List.enumFrom_cons, List.mem_cons, forall_eq_or_imp]
    rw [hPQ, ih (n + 1)]

/-- Characterization of the site-isolation check: it passes exactly when
every record carries the run's (truthy) target `site_id`. -/
theorem check_site_isolation_iff (s : String) (records : List Rec) :
    check_site_isolation s records = true ↔
      ∀ r ∈ records, r.site_id ≠ "" ∧ r.site_id = s := by
  unfold check_site_isolation siteIsolationIssues
  rw [List.isEmpty_iff, List.filterMap_eq_nil_iff]
  exact forall_enumFrom
    (fun n r => by
      constructor
      · intro h
        by_cases h1 : r.site_id = ""
        · simp [h1] at h
        · by_cases h2 : r.site_id = s
          · exact ⟨h1, h2⟩
          · simp [h1, h2] at h
      · rintro ⟨ha, hb⟩
        subst hb
        simp [ha])
    records 0

/-- Characterization of the required-fields check: it passes exactly when
every record has truthy `object_id`, `title`, `object_type` and
`text_blob`. -/
theorem check_required_fields_iff (records : List Rec) :
    check_required_fields records = true ↔
      ∀ r ∈ records,
        r.object_id ≠ "" ∧ r.title ≠ "" ∧ r.object_type ≠ "" ∧
          r.text_blob ≠ "" := by
  unfold check_required_fields requiredFieldIssues
  rw [List.isEmpty_iff, List.flatMap_eq_nil_iff]
  exact forall_enumFrom
    (fun n r => by
      constructor
      · intro h
        by_cases h1 : r.object_id = "" <;> by_cases h2 : r.title = "" <;>
          by_cases h3 : r.object_type = "" <;>
          by_cases h4 : r.text_blob = "" <;>
          simp [h1, h2, h3, h4] at h ⊢
      · intro h
        simp [h.1, h.2.1, h.2.2.1, h.2.2.2])
    records 0

/-- The overall quality verdict, characterized record-wise over the two
blocking checks. -/
theorem overall_quality_iff (s : String) (records : List Rec) :
    (run_all_checks s records).overall_quality = true ↔
      ∀ r ∈ records,
        (r.site_id ≠ "" ∧ r.site_id = s) ∧
          (r.object_id ≠ "" ∧ r.title ≠ "" ∧ r.object_type ≠ "" ∧
            r.text_blob ≠ "") := by
  have h : (run_all_checks s records).overall_quality =
      (check_site_isolation s records && check_required_fields records) :=
    rfl
  rw [h, Bool.and_eq_true, check_site_isolation_iff,
    check_required_fields_iff]
  constructor
  · intro ⟨h1, h2⟩ r hr
    exact ⟨h1 r hr, h2 r hr⟩
  · intro h
    exact ⟨fun r hr => (h r hr).1, fun r hr => (h r hr).2⟩

/-! ## Claim theorems -/

/-- C10: every listing or fetch operation of the platform client invoked
without an authenticated session (no truthy token held) fails with the
explicit not-authenticated error and issues zero outbound requests. -/
theorem C10_not_authenticated_guard {α : Type _} (c : TableauClient)
    (h : isAuthenticated c = false) (items : List α) (detail : α) :
    list_workbooks c items = (Except.error notAuthMsg, 0) ∧
    list_datasources c items = (Except.error notAuthMsg, 0) ∧
    list_views c items = (Except.error notAuthMsg, 0) ∧
    list_views_for_workbook c items = (Except.error notAuthMsg, 0) ∧
    get_workbook_details c detail = (Except.error notAuthMsg, 0) := by
  unfold list_workbooks list_datasources list_views
    list_views_for_workbook get_workbook_details
  simp [h]

/-- Witness for C10 at a concrete unauthenticated client. -/
theorem C10_witness :
    isAuthenticated { server := "srv", token := none, site_id := none } =
        false ∧
      list_workbooks { server := "srv", token := none, site_id := none }
          [1, 2, 3] = (Except.error notAuthMsg, 0) :=
  ⟨rfl,
    (C10_not_authenticated_guard
      { server := "srv", token := none, site_id := none } rfl [1, 2, 3]
      1).1⟩

/-- C9 counterexample: on the normalization path that `index_site`
actually runs (`prepare_objects_for_indexing`), a workbook payload with
no `project` and no `owner` yields a record whose `project_name` and
`owner` are null, not the empty string — refuting the claim that these
are never null on every normalization path. -/
theorem C9_counterexample_null_project_owner :
    (prepare_workbook "site1" emptyRawWorkbookR).project_name = none ∧
      (prepare_workbook "site1" emptyRawWorkbookR).owner = none := by
  constructor <;> rfl

/-- C9 amended: on the `normalize.py` builders every extracted value
defaults to the empty string (project and owner are always non-null); on
the enhanced-client prepare path, title, description and tags default to
the empty string / empty list, but `project_name` and `owner` are null
whenever the payload lacks the `project`/`owner` object. -/
theorem C9_normalizer_defaults_amended (s : String) (wb : RawWorkbookG)
    (ds : RawDatasourceG) (v : RawViewG) (wbr : RawWorkbookR) :
    ((build_workbook_record s wb).project_name =
        some (wb.projectName.getD "") ∧
      (build_workbook_record s wb).owner.isSome ∧
      (build_datasource_record s ds).project_name.isSome ∧
      (build_datasource_record s ds).owner.isSome ∧
      (build_view_record s v).project_name.isSome ∧
      (build_view_record s v).owner.isSome) ∧
    ((prepare_workbook s wbr).title = wbr.name.getD "" ∧
      (prepare_workbook s wbr).description = wbr.description.getD "" ∧
      (prepare_workbook s wbr).tags = wbr.tags.getD []) ∧
    (wbr.project = none → (prepare_workbook s wbr).project_name = none) ∧
    (wbr.owner = none → (prepare_workbook s wbr).owner = none) := by
  refine ⟨⟨rfl, rfl, rfl, rfl, rfl, rfl⟩, ⟨rfl, rfl, rfl⟩, ?_, ?_⟩
  · intro h
    simp [prepare_workbook, h]
  · intro h
    simp [prepare_workbook, h]

/-- Witness for C9 amended at a concrete payload with absent project and
owner. -/
theorem C9_witness :
    (prepare_workbook "s1" emptyRawWorkbookR).title = "" ∧
      (prepare_workbook "s1" emptyRawWorkbookR).project_name = none :=
  ⟨((C9_normalizer_defaults_amended "s1"
      { id := none, name := none, description := none,
        projectName := none, contentUrl := none, tags := none,
        owner := none }
      { id := none, name := none, description := none,
        projectName := none, contentUrl := none, tags := none,
        owner := none, fields := none }
      { id := none, name := none, description := none, contentUrl := none,
        sheetType := none, tags := none, owner := none, workbook := none,
        datasourceFields := none }
      emptyRawWorkbookR).2.1).1,
    ((C9_normalizer_defaults_amended "s1"
      { id := none, name := none, description := none,
        projectName := none, contentUrl := none, tags := none,
        owner := none }
      { id := none, name := none, description := none,
        projectName := none, contentUrl := none, tags := none,
        owner := none, fields := none }
      { id := none, name := none, description := none, contentUrl := none,
        sheetType := none, tags := none, owner := none, workbook := none,
        datasourceFields := none }
      emptyRawWorkbookR).2.2.1) rfl⟩

/-- C5: evaluation of the upsert at the failing input.  The claim (and
the spec's required invariant) says a conflict overwrite that changes
`text_blob` clears the row's embedding so the embedding generator
re-selects the row; the code's `ON CONFLICT ... DO UPDATE` does not touch
the `embedding` column, so the overwritten row keeps its stale embedding
and is not selected by `get_unembedded_records`. -/
theorem C5_upsert_preserves_stale_embedding :
    (upsertOne 2 (sampleRec "s1" "w1" "New" "new blob")
        [sampleRow "s1" "w1" "Old" "old blob"
          (some (List.replicate 384 1)) 1]).map
        (fun r => (r.text_blob, r.embedding.isSome, r.updated_at)) =
      [("new blob", true, 2)] ∧
    get_unembedded_records
        (upsertOne 2 (sampleRec "s1" "w1" "New" "new blob")
          [sampleRow "s1" "w1" "Old" "old blob"
            (some (List.replicate 384 1)) 1]) none = [] := by
  refine ⟨rfl, ?_⟩
  have h1 : (upsertOne 2 (sampleRec "s1" "w1" "New" "new blob")
      [sampleRow "s1" "w1" "Old" "old blob"
        (some (List.replicate 384 1)) 1]).filter
      (fun r => r.embedding.isNone) = [] := rfl
  show ((upsertOne 2 (sampleRec "s1" "w1" "New" "new blob")
      [sampleRow "s1" "w1" "Old" "old blob"
        (some (List.replicate 384 1)) 1]).filter
      (fun r => r.embedding.isNone)).mergeSort
      (fun a b => decide (b.updated_at ≤ a.updated_at)) = []
  rw [h1, List.mergeSort_nil]

/-- C3: a run whose quality gate (over the records it actually gates,
after the max-objects cap) returns `overall_quality = false` aborts
before any upsert: the store after the run equals the store before it,
and one run-level error is counted. -/
theorem C3_blocked_run_writes_nothing (site_id : String)
    (max_objects : Option Nat) (now : Nat) (records : List Rec)
    (db : List Row)
    (hq : (run_all_checks site_id
        (capRecords max_objects records)).overall_quality = false) :
    index_site true site_id max_objects now records db = (db, 1) := by
  unfold index_site
  by_cases he : records.isEmpty
  · exfalso
    have hnil : records = [] := List.isEmpty_iff.mp he
    have hcap : capRecords max_objects [] = [] := by
      unfold capRecords
      cases max_objects with
      | none => rfl
      | some m => simp
    rw [hnil, hcap] at hq
    have : (run_all_checks site_id []).overall_quality = true := rfl
    rw [this] at hq
    exact Bool.noConfusion hq
  · simp only [he, if_false, if_true, hq]
    simp [hq]

/-- Witness for C3: a concrete blocked run (wrong site id) leaves a
concrete store untouched. -/
theorem C3_witness :
    (run_all_checks "s1"
        (capRecords none [sampleRec "OTHER" "w1" "T" "b"])).overall_quality =
        false ∧
      index_site true "s1" none 7 [sampleRec "OTHER" "w1" "T" "b"]
          [sampleRow "s1" "w0" "T0" "b0" none 0] =
        ([sampleRow "s1" "w0" "T0" "b0" none 0], 1) :=
  ⟨by rfl,
    C3_blocked_run_writes_nothing "s1" none 7
      [sampleRec "OTHER" "w1" "T" "b"]
      [sampleRow "s1" "w0" "T0" "b0" none 0] (by rfl)⟩

/-- C8: search-time failures never reach the caller: the model of
`search` is a total function; when the embedding model fails the lexical
fallback is attempted, when the vector path's store access fails the
lexical fallback is attempted, and when both the vector and lexical paths
fail the caller receives the empty result. -/
theorem C8_search_failures_degrade (env : SearchEnv) (db : List Row)
    (q : String) (limit : Nat) (threshold : ℚ) :
    (env.encode q = none →
      search env db q limit threshold =
        if pyStrip q = "" then [] else text_search env db q limit) ∧
    (env.vector_ok = false →
      search env db q limit threshold =
        if pyStrip q = "" then [] else text_search env db q limit) ∧
    (env.text_ok = false → env.vector_ok = false →
      search env db q limit threshold = []) := by
  refine ⟨?_, ?_, ?_⟩
  · intro h
    unfold search
    by_cases hq : pyStrip q = "" <;> simp [hq, h]
  · intro h
    unfold search
    by_cases hq : pyStrip q = "" <;> simp [hq]
    cases henc : env.encode q with
    | none => rfl
    | some qe =>
      have hv : vector_search env db qe limit threshold = [] := by
        unfold vector_search
        simp [h]
      simp [hv]
  · intro ht hv
    unfold search
    by_cases hq : pyStrip q = "" <;> simp [hq]
    have htxt : text_search env db q limit = [] := by
      unfold text_search
      simp [ht]
    cases henc : env.encode q with
    | none => simp [htxt]
    | some qe =>
      have hvs : vector_search env db qe limit threshold = [] := by
        unfold vector_search
        simp [hv]
      simp [hvs, htxt]

/-- Witness for C8: with a failing embedding model over a concrete store,
the concrete search result is the lexical ranking; with both paths
failing it is empty. -/
theorem C8_witness :
    search { sampleEnv with encode := fun _ => none }
        [sampleRow "s1" "w1" "T" "blob" none 1] "query" 10 (3 / 10) =
      text_search { sampleEnv with encode := fun _ => none }
        [sampleRow "s1" "w1" "T" "blob" none 1] "query" 10 ∧
    search { sampleEnv with vector_ok := false, text_ok := false }
        [sampleRow "s1" "w1" "T" "blob" none 1] "query" 10 (3 / 10) = [] := by
  constructor
  · have h := (C8_search_failures_degrade
      { sampleEnv with encode := fun _ => none }
      [sampleRow "s1" "w1" "T" "blob" none 1] "query" 10 (3 / 10)).1 rfl
    rw [h]
    rfl
  · exact (C8_search_failures_degrade
      { sampleEnv with vector_ok := false, text_ok := false }
      [sampleRow "s1" "w1" "T" "blob" none 1] "query" 10 (3 / 10)).2.2 rfl
      rfl

/-- The blocking-relevant projection of a record: the only fields the two
blocking quality checks read. -/
def blockProj (r : Rec) : String × String × String × String × String :=
  (r.site_id, r.object_id, r.title, r.object_type, r.text_blob)

/-- C2: `overall_quality` is the conjunction of the two blocking checks
only; it is antitone in added blocking failures (false stays false under
batch extension); a batch whose records all pass the blocking predicates
gets `overall_quality = true` even when advisory warnings remain; and two
batches agreeing on the blocking-relevant fields (however their advisory
fields — description, url, deep link — differ) get the same verdict. -/
theorem C2_quality_gate_blocking_only (site_id : String)
    (records more records' : List Rec)
    (hproj : records.map blockProj = records'.map blockProj) :
    ((run_all_checks site_id records).overall_quality =
        (check_site_isolation site_id records &&
          check_required_fields records)) ∧
    ((run_all_checks site_id records).overall_quality = false →
      (run_all_checks site_id (records ++ more)).overall_quality =
        false) ∧
    ((∀ r ∈ records,
        (r.site_id ≠ "" ∧ r.site_id = site_id) ∧
          (r.object_id ≠ "" ∧ r.title ≠ "" ∧ r.object_type ≠ "" ∧
            r.text_blob ≠ "")) →
      (run_all_checks site_id records).overall_quality = true) ∧
    ((run_all_checks site_id records').overall_quality =
      (run_all_checks site_id records).overall_quality) := by
  refine ⟨rfl, ?_, ?_, ?_⟩
  · intro h
    by_contra hne
    have happ : (run_all_checks site_id (records ++ more)).overall_quality
        = true := by
      cases hval : (run_all_checks site_id
          (records ++ more)).overall_quality with
      | false => exact absurd hval hne
      | true => rfl
    have hall := (overall_quality_iff site_id (records ++ more)).mp happ
    have hres : (run_all_checks site_id records).overall_quality = true :=
      (overall_quality_iff site_id records).mpr
        (fun r hr => hall r (List.mem_append_left more hr))
    rw [hres] at h
    exact Bool.noConfusion h
  · exact fun h => (overall_quality_iff site_id records).mpr h
  · rw [Bool.eq_iff_iff, overall_quality_iff, overall_quality_iff]
    have hiff : ∀ rs : List Rec,
        (∀ r ∈ rs,
            (r.site_id ≠ "" ∧ r.site_id = site_id) ∧
              (r.object_id ≠ "" ∧ r.title ≠ "" ∧ r.object_type ≠ "" ∧
                r.text_blob ≠ "")) ↔
          ∀ y ∈ rs.map blockProj,
            (y.1 ≠ "" ∧ y.1 = site_id) ∧
              (y.2.1 ≠ "" ∧ y.2.2.1 ≠ "" ∧ y.2.2.2.1 ≠ "" ∧
                y.2.2.2.2 ≠ "") := by
      intro rs
      rw [List.forall_mem_map]
      exact Iff.rfl
    rw [hiff records', hiff records, hproj]

/-- Witness for C2: a passing batch (with an advisory warning from its
empty description) is accepted; prepending a site-mismatching record to a
failed batch keeps it failed; and changing only advisory fields keeps the
verdict. -/
theorem C2_witness :
    (run_all_checks "s1" [sampleRec "s1" "w1" "T" "blob"]).overall_quality
        = true ∧
      (run_all_checks "s1"
          ([sampleRec "OTHER" "w9" "T" "b"] ++
            [sampleRec "s1" "w1" "T" "blob"])).overall_quality = false ∧
      (run_all_checks "s1"
          [{ sampleRec "s1" "w1" "T" "blob" with
              description := "changed", url := "malformed" }]).overall_quality
        = (run_all_checks "s1"
            [sampleRec "s1" "w1" "T" "blob"]).overall_quality :=
  ⟨(C2_quality_gate_blocking_only "s1" [sampleRec "s1" "w1" "T" "blob"] []
      [sampleRec "s1" "w1" "T" "blob"] rfl).2.2.1 (by decide),
    (C2_quality_gate_blocking_only "s1" [sampleRec "OTHER" "w9" "T" "b"]
      [sampleRec "s1" "w1" "T" "blob"] [sampleRec "OTHER" "w9" "T" "b"]
      rfl).2.1 (by rfl),
    (C2_quality_gate_blocking_only "s1" [sampleRec "s1" "w1" "T" "blob"]
      []
      [{ sampleRec "s1" "w1" "T" "blob" with
          description := "changed", url := "malformed" }]
      (by rfl)).2.2.2⟩

/-- The key of a freshly inserted row is the record's key. -/
theorem rowKey_newRow (now : Nat) (r : Rec) :
    rowKey (newRow now r) = recKey r := rfl

/-- The conflict overwrite does not change a row's key. -/
theorem rowKey_overwriteRow (now : Nat) (r : Rec) (old : Row) :
    rowKey (overwriteRow now r old) = rowKey old := rfl

/-- Key multiset effect of one upsert: an existing key leaves the key
list unchanged, a new key is appended. -/
theorem keys_upsertOne (now : Nat) (r : Rec) (db : List Row) :
    (upsertOne now r db).map rowKey =
      if recKey r ∈ db.map rowKey then db.map rowKey
      else db.map rowKey ++ [recKey r] := by
  induction db with
  | nil => simp [upsertOne, rowKey_newRow]
  | cons row rest ih =>
    simp only [upsertOne]
    by_cases h : rowKey row = recKey r
    · rw [if_pos h]
      have hmem : recKey r ∈ (row :: rest).map rowKey := by
        simp [← h]
      rw [if_pos hmem]
      simp [rowKey_overwriteRow, h]
    · rw [if_neg h]
      simp only [List.map_cons, ih]
      by_cases hm : recKey r ∈ rest.map rowKey
      · rw [if_pos hm, if_pos (by simp [hm])]
      · rw [if_neg hm,
          if_neg (by
            simp only [List.mem_cons]
            rintro (hh | hh)
            · exact h hh.symm
            · exact hm hh)]
        simp

/-- One upsert preserves key uniqueness. -/
theorem nodup_keys_upsertOne (now : Nat) (r : Rec) {db : List Row}
    (h : (db.map rowKey).Nodup) :
    ((upsertOne now r db).map rowKey).Nodup := by
  rw [keys_upsertOne]
  by_cases hm : recKey r ∈ db.map rowKey
  · rw [if_pos hm]
    exact h
  · rw [if_neg hm]
    simp [List.nodup_append, h, hm]

/-- A sequence of upserts preserves key uniqueness. -/
theorem nodup_keys_upsert_records (now : Nat) (records : List Rec) :
    ∀ {db : List Row}, (db.map rowKey).Nodup →
      ((upsert_records now records db).map rowKey).Nodup := by
  induction records with
  | nil => exact fun h => h
  | cons r rs ih =>
    intro db h
    exact ih (nodup_keys_upsertOne now r h)

/-- A batched sequence of upserts preserves key uniqueness. -/
theorem nodup_keys_upsert_records_batch (now : Nat) (records : List Rec)
    (batch_size : Nat) {db : List Row} (h : (db.map rowKey).Nodup) :
    ((upsert_records_batch now records batch_size db).map rowKey).Nodup := by
  unfold upsert_records_batch
  generalize chunks batch_size records = batches
  induction batches generalizing db with
  | nil => exact h
  | cons b bs ih => exact ih (nodup_keys_upsert_records now b h)

/-- In a key-unique table, after an upsert of `r` every row keyed like
`r` carries exactly `r`'s column values with the refreshed timestamp. -/
theorem upsertOne_key_values (now : Nat) (r : Rec) :
    ∀ {db : List Row}, (db.map rowKey).Nodup →
      ∀ row ∈ upsertOne now r db, rowKey row = recKey r →
        row.title = r.title ∧ row.description = r.description ∧
          row.tags = r.tags ∧ row.fields = r.fields ∧
          row.project_name = r.project_name ∧ row.owner = r.owner ∧
          row.url = r.url ∧ row.text_blob = r.text_blob ∧
          row.updated_at = now := by
  intro db
  induction db with
  | nil =>
    intro _ row hrow _
    simp only [upsertOne, List.mem_singleton] at hrow
    subst hrow
    exact ⟨rfl, rfl, rfl, rfl, rfl, rfl, rfl, rfl, rfl⟩
  | cons row0 rest ih =>
    intro hnd row hrow hkey
    have hnd' : (rest.map rowKey).Nodup :=
      (List.nodup_cons.mp (by simpa using hnd)).2
    have hnotin : rowKey row0 ∉ rest.map rowKey :=
      (List.nodup_cons.mp (by simpa using hnd)).1
    simp only [upsertOne] at hrow
    by_cases h : rowKey row0 = recKey r
    · rw [if_pos h] at hrow
      rcases List.mem_cons.mp hrow with hrow | hrow
      · subst hrow
        exact ⟨rfl, rfl, rfl, rfl, rfl, rfl, rfl, rfl, rfl⟩
      · exfalso
        apply hnotin
        rw [h, ← hkey]
        exact List.mem_map_of_mem rowKey hrow
    · rw [if_neg h] at hrow
      rcases List.mem_cons.mp hrow with hrow | hrow
      · exfalso
        subst hrow
        exact h hkey
      · exact ih hnd' row hrow hkey

/-- In a key-unique table, after an upsert of `r` exactly one row carries
`r`'s key. -/
theorem upsertOne_key_count (now : Nat) (r : Rec) :
    ∀ {db : List Row}, (db.map rowKey).Nodup →
      ((upsertOne now r db).filter
          (fun row => decide (rowKey row = recKey r))).length = 1 := by
  intro db
  induction db with
  | nil =>
    intro _
    simp [upsertOne, rowKey_newRow]
  | cons row0 rest ih =>
    intro hnd
    have hnd' : (rest.map rowKey).Nodup :=
      (List.nodup_cons.mp (by simpa using hnd)).2
    have hnotin : rowKey row0 ∉ rest.map rowKey :=
      (List.nodup_cons.mp (by simpa using hnd)).1
    simp only [upsertOne]
    by_cases h : rowKey row0 = recKey r
    · rw [if_pos h]
      have hrest : rest.filter
          (fun row => decide (rowKey row = recKey r)) = [] := by
        rw [List.filter_eq_nil_iff]
        intro row hrow
        simp only [decide_eq_true_eq]
        intro hk
        apply hnotin
        rw [h, ← hk]
        exact List.mem_map_of_mem rowKey hrow
      simp [List.filter_cons, rowKey_overwriteRow, h, hrest]
    · rw [if_neg h]
      simp [List.filter_cons, h, ih hnd']

/-- C1: upsert is idempotent and key-unique.  Upserting two records with
the same key (in particular the same record twice) into a key-unique
store leaves exactly one row under that key; that row carries the second
call's column values with `updated_at` refreshed to the second call's
timestamp and no field-level merge; and any sequence of upserts — batched
or not — preserves key uniqueness. -/
theorem C1_upsert_idempotence_and_key_uniqueness (db : List Row)
    (r₁ r₂ : Rec) (n₁ n₂ : Nat) (_hkey : recKey r₁ = recKey r₂)
    (hnd : (db.map rowKey).Nodup) :
    (((upsertOne n₂ r₂ (upsertOne n₁ r₁ db)).filter
        (fun row => decide (rowKey row = recKey r₂))).length = 1 ∧
      ∀ row ∈ upsertOne n₂ r₂ (upsertOne n₁ r₁ db),
        rowKey row = recKey r₂ →
          row.title = r₂.title ∧ row.description = r₂.description ∧
            row.tags = r₂.tags ∧ row.fields = r₂.fields ∧
            row.project_name = r₂.project_name ∧ row.owner = r₂.owner ∧
            row.url = r₂.url ∧ row.text_blob = r₂.text_blob ∧
            row.updated_at = n₂) ∧
    (∀ (now : Nat) (records : List Rec) (db' : List Row),
      (db'.map rowKey).Nodup →
        ((upsert_records now records db').map rowKey).Nodup ∧
          ∀ batch_size,
            ((upsert_records_batch now records batch_size db').map
                rowKey).Nodup) := by
  have hnd1 : ((upsertOne n₁ r₁ db).map rowKey).Nodup :=
    nodup_keys_upsertOne n₁ r₁ hnd
  refine ⟨⟨upsertOne_key_count n₂ r₂ hnd1, upsertOne_key_values n₂ r₂ hnd1⟩,
    ?_⟩
  intro now records db' hnd'
  exact ⟨nodup_keys_upsert_records now records hnd',
    fun batch_size =>
      nodup_keys_upsert_records_batch now records batch_size hnd'⟩

/-- Witness for C1: upserting the same key twice into an empty store at
concrete timestamps. -/
theorem C1_witness :
    ((upsertOne 6 (sampleRec "s1" "w1" "B" "b")
        (upsertOne 5 (sampleRec "s1" "w1" "A" "a") [])).filter
        (fun row =>
          decide (rowKey row = recKey (sampleRec "s1" "w1" "B" "b")))).length
        = 1 ∧
      ((upsert_records 7
          [sampleRec "s1" "w1" "A" "a", sampleRec "s1" "w1" "B" "b"]
          []).map rowKey).Nodup :=
  ⟨(C1_upsert_idempotence_and_key_uniqueness []
      (sampleRec "s1" "w1" "A" "a") (sampleRec "s1" "w1" "B" "b") 5 6 rfl
      (by simp)).1.1,
    ((C1_upsert_idempotence_and_key_uniqueness []
      (sampleRec "s1" "w1" "A" "a") (sampleRec "s1" "w1" "B" "b") 5 6 rfl
      (by simp)).2 7
      [sampleRec "s1" "w1" "A" "a", sampleRec "s1" "w1" "B" "b"] []
      (by simp)).1⟩

/-- Value of the uncapped pagination loop over a finite source: all items
are returned and, because the loop only stops on a page shorter than
`page_size`, exactly `N / P + 1` page requests are issued — an exact
multiple (including N = 0) costs one extra empty-page request. -/
theorem paginateFrom_none {α : Type _} (P : Nat) (hP : 0 < P) :
    ∀ (rest : List α) (page : Nat),
      paginateFrom P none page rest = (rest, rest.length / P + 1) := by
  suffices h : ∀ (n : Nat) (rest : List α), rest.length ≤ n → ∀ page,
      paginateFrom P none page rest = (rest, rest.length / P + 1) by
    exact fun rest page => h rest.length rest le_rfl page
  intro n
  induction n with
  | zero =>
    intro rest hlen page
    have hnil : rest = [] := List.length_eq_zero.mp (Nat.le_zero.mp hlen)
    subst hnil
    rw [paginateFrom]
    simp
  | succ n ih =>
    intro rest hlen page
    rw [paginateFrom]
    by_cases h1 : (rest.take P).length = 0
    · rw [dif_pos h1]
      have hnil : rest = [] := by
        rcases List.take_eq_nil_iff.mp (List.length_eq_zero.mp h1) with
          h | h
        · omega
        · exact h
      subst hnil
      simp
    · rw [dif_neg h1]
      by_cases h2 : (rest.take P).length < P
      · rw [dif_pos h2]
        have hlt : rest.length < P := by
          have := List.length_take P rest
          omega
        rw [List.take_of_length_le (Nat.le_of_lt hlt),
          Nat.div_eq_of_lt hlt]
      · rw [dif_neg h2]
        have hcap : capReached none page = false := rfl
        rw [hcap]
        simp only [Bool.false_eq_true, if_false]
        have hPle : P ≤ rest.length := by
          have := List.length_take P rest
          omega
        have hrec := ih (rest.drop P)
          (by
            rw [List.length_drop]
            omega)
          (page + 1)
        rw [hrec]
        simp only [List.length_drop]
        refine Prod.ext ?_ ?_
        · simp [List.take_append_drop]
        · simp only
          rw [Nat.div_eq_sub_div hP hPle]

/-- Value of the capped pagination loop: with `k := m + 1 - page` pages
still allowed, the loop returns the next `k * P` items (all of them when
fewer remain) in `min (N / P + 1) k` requests. -/
theorem paginateFrom_capped {α : Type _} (P : Nat) (hP : 0 < P)
    (m : Nat) (hm : 1 ≤ m) :
    ∀ (n : Nat) (rest : List α), rest.length ≤ n → ∀ page, page ≤ m →
      paginateFrom P (some m) page rest =
        (rest.take ((m + 1 - page) * P),
          min (rest.length / P + 1) (m + 1 - page)) := by
  intro n
  induction n with
  | zero =>
    intro rest hlen page hpage
    have hnil : rest = [] := List.length_eq_zero.mp (Nat.le_zero.mp hlen)
    subst hnil
    have hk : 1 ≤ m + 1 - page := by omega
    rw [paginateFrom]
    have h0 : ((([] : List α).take P)).length = 0 := by simp
    rw [dif_pos h0]
    simp [Nat.min_eq_left hk]
  | succ n ih =>
    intro rest hlen page hpage
    rw [paginateFrom]
    by_cases h1 : (rest.take P).length = 0
    · rw [dif_pos h1]
      have hnil : rest = [] := by
        rcases List.take_eq_nil_iff.mp (List.length_eq_zero.mp h1) with
          h | h
        · omega
        · exact h
      subst hnil
      have hk : 1 ≤ m + 1 - page := by omega
      simp only [List.take_nil, List.length_nil, Nat.zero_div,
        Nat.zero_add]
      rw [Nat.min_eq_left hk]
    · rw [dif_neg h1]
      by_cases h2 : (rest.take P).length < P
      · rw [dif_pos h2]
        have hlt : rest.length < P := by
          have := List.length_take P rest
          omega
        have hk : 1 ≤ m + 1 - page := by omega
        have hkP : P ≤ (m + 1 - page) * P :=
          Nat.le_mul_of_pos_left P (by omega)
        rw [List.take_of_length_le (Nat.le_of_lt hlt),
          List.take_of_length_le (Nat.le_of_lt (Nat.lt_of_lt_of_le hlt hkP)),
          Nat.div_eq_of_lt hlt]
        rw [Nat.min_eq_left hk]
      · rw [dif_neg h2]
        have hPle : P ≤ rest.length := by
          have := List.length_take P rest
          omega
        have hdiv : 1 ≤ rest.length / P := Nat.one_le_div_iff hP |>.mpr hPle
        by_cases hcap : page ≥ m
        · have hpm : page = m := Nat.le_antisymm hpage hcap
          have hc : capReached (some m) page = true := by
            unfold capReached
            simp only [ne_eq, Bool.and_eq_true, decide_eq_true_eq]
            exact ⟨by omega, hcap⟩
          rw [hc]
          simp only [if_true]
          have hk1 : m + 1 - page = 1 := by omega
          rw [hk1, Nat.one_mul]
          rw [Nat.min_eq_right (by omega)]
        · have hc : capReached (some m) page = false := by
            unfold capReached
            simp only [Bool.and_eq_false_iff, decide_eq_false_iff_not]
            right
            omega
          rw [hc]
          simp only [Bool.false_eq_true, if_false]
          have hrec := ih (rest.drop P)
            (by
              rw [List.length_drop]
              omega)
            (page + 1) (by omega)
          rw [hrec]
          have hk2 : 2 ≤ m + 1 - page := by omega
          have hkk : m + 1 - (page + 1) = (m + 1 - page) - 1 := by omega
          refine Prod.ext ?_ ?_
          · simp only [List.length_drop, hkk]
            have hsub : ((m + 1 - page) - 1) * P = (m + 1 - page) * P - P :=
              Nat.sub_one_mul _ P
            have hle2 : P ≤ (m + 1 - page) * P :=
              Nat.le_mul_of_pos_left P (by omega)
            have hmul : (m + 1 - page) * P = P + ((m + 1 - page) - 1) * P := by
              omega
            rw [hmul, List.take_add]
          · simp only [List.length_drop, hkk]
            rw [Nat.div_eq_sub_div hP hPle]
            have hmin : min ((rest.length - P) / P + 1)
                ((m + 1 - page) - 1) + 1 =
                min ((rest.length - P) / P + 1 + 1) (m + 1 - page) := by
              omega
            rw [← hmin]

/-- C6: over a source of `N` items served in pages of `P > 0` starting at
page 1, the driver returns all `N` items exactly once in exactly
`N / P + 1` requests (the boundary cases `N = 0` and `P ∣ N` included,
costing one extra empty/short-page request), and under a max-pages cap
`m ≥ 1` it returns the first `m * P` items in `min (N / P + 1) m`
requests. -/
theorem C6_pagination_exact {α : Type _} (P : Nat) (hP : 0 < P)
    (items : List α) :
    (paginate_requests P none items).1 = items ∧
    (paginate_requests P none items).2 = items.length / P + 1 ∧
    ∀ m, 1 ≤ m →
      (paginate_requests P (some m) items).1 = items.take (m * P) ∧
      (paginate_requests P (some m) items).2 =
        min (items.length / P + 1) m := by
  have hnone := paginateFrom_none P hP items 1
  refine ⟨by rw [paginate_requests, hnone], by rw [paginate_requests, hnone],
    ?_⟩
  intro m hm
  have hcap := paginateFrom_capped P hP m hm items.length items le_rfl 1 hm
  have hk : m + 1 - 1 = m := by omega
  rw [hk] at hcap
  exact ⟨by rw [paginate_requests, hcap], by rw [paginate_requests, hcap]⟩

/-- Witness for C6 at concrete sources: N = 5 and N = 4 with P = 2
(non-multiple and exact-multiple boundaries), N = 0, and a cap of 2
pages. -/
theorem C6_witness :
    paginate_requests 2 none [1, 2, 3, 4, 5] = ([1, 2, 3, 4, 5], 3) ∧
      paginate_requests 2 none [1, 2, 3, 4] = ([1, 2, 3, 4], 3) ∧
      paginate_requests 2 none ([] : List Nat) = ([], 1) ∧
      paginate_requests 2 (some 2) [1, 2, 3, 4, 5, 6, 7] = ([1, 2, 3, 4], 2) := by
  have h5 := C6_pagination_exact 2 (by decide) [1, 2, 3, 4, 5]
  have h4 := C6_pagination_exact 2 (by decide) [1, 2, 3, 4]
  have h0 := C6_pagination_exact 2 (by decide) ([] : List Nat)
  have h7 := (C6_pagination_exact 2 (by decide)
    [1, 2, 3, 4, 5, 6, 7]).2.2 2 (by decide)
  refine ⟨?_, ?_, ?_, ?_⟩
  · refine Prod.ext ?_ ?_
    · rw [h5.1]
    · rw [h5.2.1]
      rfl
  · refine Prod.ext ?_ ?_
    · rw [h4.1]
    · rw [h4.2.1]
      rfl
  · refine Prod.ext ?_ ?_
    · rw [h0.1]
    · rw [h0.2.1]
      rfl
  · refine Prod.ext ?_ ?_
    · rw [h7.1]
      rfl
    · rw [h7.2]
      rfl

/-- C4: on the healthy vector path, `search` on a non-blank query first
runs the vector step — only rows with a non-null embedding, ranked by
cosine similarity to the query embedding in descending order, at most
`limit` of the top-ranked kept, and of those only the rows with
similarity ≥ threshold returned — and returns the lexical ranking over
`text_blob` (same limit, no similarity threshold) exactly when that
vector step yields zero rows. -/
theorem C4_vector_first_lexical_fallback (env : SearchEnv) (db : List Row)
    (q : String) (limit : Nat) (threshold : ℚ) (qe : Vec)
    (hok : env.vector_ok = true) (hq : pyStrip q ≠ "")
    (henc : env.encode q = some qe) :
    (∀ r ∈ vector_search env db qe limit threshold,
        r.embedding.isSome ∧ r ∈ db ∧ threshold ≤ simOf qe r) ∧
    (vector_search env db qe limit threshold).Pairwise
      (fun a b => simOf qe b ≤ simOf qe a) ∧
    (vector_search env db qe limit threshold).length ≤ limit ∧
    (vector_search env db qe limit threshold ≠ [] →
      search env db q limit threshold =
        vector_search env db qe limit threshold) ∧
    (vector_search env db qe limit threshold = [] →
      search env db q limit threshold = text_search env db q limit) ∧
    (text_search env db q limit).length ≤ limit := by
  have hv : vector_search env db qe limit threshold =
      (((db.filter (fun r => r.embedding.isSome)).mergeSort
          (fun a b => decide (distOf qe a ≤ distOf qe b))).take
          limit).filter (fun r => decide (simOf qe r ≥ threshold)) := by
    unfold vector_search
    rw [if_pos hok]
  have hperm := List.mergeSort_perm
    (db.filter (fun r => r.embedding.isSome))
    (fun a b => decide (distOf qe a ≤ distOf qe b))
  refine ⟨?_, ?_, ?_, ?_, ?_, ?_⟩
  · intro r hr
    rw [hv] at hr
    have hr1 := List.mem_filter.mp hr
    have hr2 : r ∈ (db.filter (fun r => r.embedding.isSome)).mergeSort
        (fun a b => decide (distOf qe a ≤ distOf qe b)) :=
      List.mem_of_mem_take hr1.1
    have hr3 : r ∈ db.filter (fun r => r.embedding.isSome) :=
      hperm.mem_iff.mp hr2
    have hr4 := List.mem_filter.mp hr3
    refine ⟨hr4.2, hr4.1, ?_⟩
    have := hr1.2
    simpa [ge_iff_le] using this
  · rw [hv]
    have hs := @List.sorted_mergeSort Row
      (fun a b : Row => decide (distOf qe a ≤ distOf qe b))
      (fun a b c h1 h2 => by
        simp only [decide_eq_true_eq] at h1 h2 ⊢
        exact le_trans h1 h2)
      (fun a b => by
        simp only [Bool.or_eq_true, decide_eq_true_eq]
        exact le_total _ _)
      (db.filter (fun r => r.embedding.isSome))
    have hs' : ((db.filter (fun r => r.embedding.isSome)).mergeSort
        (fun a b => decide (distOf qe a ≤ distOf qe b))).Pairwise
        (fun a b => simOf qe b ≤ simOf qe a) := by
      refine hs.imp ?_
      intro a b h
      simp only [decide_eq_true_eq] at h
      exact sub_le_sub_left h 1
    exact ((hs'.sublist (List.take_sublist _ _)).sublist
      (List.filter_sublist _))
  · rw [hv]
    exact le_trans (List.length_filter_le _ _) (List.length_take_le _ _)
  · intro hne
    unfold search
    rw [if_neg hq, henc]
    simp only
    rw [if_neg (by simpa [List.isEmpty_iff] using hne)]
  · intro hnil
    unfold search
    rw [if_neg hq, henc]
    simp only
    rw [if_pos (by simpa [List.isEmpty_iff] using hnil)]
  · unfold text_search
    by_cases ht : env.text_ok
    · rw [if_pos ht]
      exact List.length_take_le _ _
    · rw [if_neg ht]
      simp

/-- Witness for C4: one embedded row, a healthy environment and a
concrete query; the vector step returns the row (similarity 1 ≥ 0.3) and
`search` returns exactly that. -/
theorem C4_witness :
    search sampleEnv [sampleRow "s1" "w1" "T" "blob" (some [1]) 1] "query"
        10 (3 / 10) =
      vector_search sampleEnv
        [sampleRow "s1" "w1" "T" "blob" (some [1]) 1] [1] 10 (3 / 10) := by
  have hv : vector_search sampleEnv
      [sampleRow "s1" "w1" "T" "blob" (some [1]) 1] [1] 10 (3 / 10) =
      [sampleRow "s1" "w1" "T" "blob" (some [1]) 1] := by
    have hms : ([sampleRow "s1" "w1" "T" "blob" (some [1]) 1].filter
        (fun r => r.embedding.isSome)).mergeSort
        (fun a b => decide (distOf [1] a ≤ distOf [1] b)) =
        [sampleRow "s1" "w1" "T" "blob" (some [1]) 1] := by
      have hf : [sampleRow "s1" "w1" "T" "blob" (some [1]) 1].filter
          (fun r => r.embedding.isSome) =
          [sampleRow "s1" "w1" "T" "blob" (some [1]) 1] := rfl
      rw [hf]
      exact List.perm_singleton.mp (List.mergeSort_perm _ _)
    unfold vector_search
    rw [if_pos (show sampleEnv.vector_ok = true from rfl), hms]
    rw [List.take_of_length_le (by simp)]
    have : decide (simOf [1] (sampleRow "s1" "w1" "T" "blob" (some [1]) 1)
        ≥ (3 / 10 : ℚ)) = true := by
      simp [simOf, distOf, cosineDistance, dot, sampleRow]
      norm_num
    simp [List.filter_cons, this]
  rw [(C4_vector_first_lexical_fallback sampleEnv
      [sampleRow "s1" "w1" "T" "blob" (some [1]) 1] "query" 10 (3 / 10)
      [1] rfl (by decide) rfl).2.2.2.1
    (by
      rw [hv]
      simp)]

/-! ## Text-blob normalization lemmas (for C7)

The strategy: `trim (collapse xs)` equals the words of `xs` joined by
single spaces (`wordsNormal`), for every `xs`.  The spec formula and the
code pipeline are both reduced to that normal form; they agree exactly
when the code's collapse output is already trimmed, which holds when no
part is a non-empty whitespace-only string. -/

/-- Conversion of `Char.ofNat` at a valid code point. -/
theorem toNat_ofNat_valid (n : Nat) (h : n.isValidChar) :
    (Char.ofNat n).toNat = n := by
  simp [Char.ofNat, h, Char.ofNatAux, Char.toNat, UInt32.toNat,
    BitVec.toNat_ofNatLt]

/-- ASCII lowercasing never produces a character in the uppercase range
`[65, 90]`. -/
theorem toLower_not_upper (c : Char) :
    (Char.toLower c).toNat < 65 ∨ 90 < (Char.toLower c).toNat := by
  unfold Char.toLower
  by_cases h : c.toNat ≥ 65 ∧ c.toNat ≤ 90
  · rw [if_pos h]
    right
    have hv : (c.toNat + 32).isValidChar := Or.inl (by omega)
    have h2 := toNat_ofNat_valid (c.toNat + 32) hv
    omega
  · rw [if_neg h]
    omega

/-- ASCII lowercasing preserves the whitespace status of a character. -/
theorem isWS_toLower (c : Char) : isWS (Char.toLower c) = isWS c := by
  unfold isWS Char.toLower
  by_cases h : c.toNat ≥ 65 ∧ c.toNat ≤ 90
  · rw [if_pos h]
    have hv : (c.toNat + 32).isValidChar := Or.inl (by omega)
    have h2 := toNat_ofNat_valid (c.toNat + 32) hv
    have hc : c ≠ ' ' ∧ c ≠ '\t' ∧ c ≠ '\n' ∧ c ≠ '\r' := by
      refine ⟨?_, ?_, ?_, ?_⟩ <;> (intro he; subst he; simp at h)
    have hd : Char.ofNat (c.toNat + 32) ≠ ' ' ∧
        Char.ofNat (c.toNat + 32) ≠ '\t' ∧
        Char.ofNat (c.toNat + 32) ≠ '\n' ∧
        Char.ofNat (c.toNat + 32) ≠ '\r' := by
      refine ⟨?_, ?_, ?_, ?_⟩ <;> (intro he; rw [he] at h2)
      · have h3 : (' ').toNat = 32 := rfl
        omega
      · have h3 : ('\t').toNat = 9 := rfl
        omega
      · have h3 : ('\n').toNat = 10 := rfl
        omega
      · have h3 : ('\r').toNat = 13 := rfl
        omega
    simp [hc.1, hc.2.1, hc.2.2.1, hc.2.2.2, hd.1, hd.2.1, hd.2.2.1,
      hd.2.2.2]
  · rw [if_neg h]

/-- The run-tracker state after an appended list. -/
theorem stAfter_append (xs ys : List Char) :
    ∀ b, stAfter b (xs ++ ys) = stAfter (stAfter b xs) ys := by
  induction xs with
  | nil => intro b; rfl
  | cons c cs ih => intro b; exact ih (isWS c)

/-- The run-tracker state after a non-empty list is the whitespace status
of its last character. -/
theorem stAfter_eq_last : ∀ (xs : List Char) (hx : xs ≠ []) (b : Bool),
    stAfter b xs = isWS (xs.getLast hx) := by
  intro xs
  induction xs with
  | nil => intro hx; exact absurd rfl hx
  | cons c cs ih =>
    intro _ b
    cases cs with
    | nil => rfl
    | cons d ds =>
      show stAfter (isWS c) (d :: ds) = _
      rw [ih (by simp)]
      rfl

/-- `collapseWS` over a whitespace-only list with the tracker already in
a run. -/
theorem collapseWS_true_allWS :
    ∀ (ws : List Char), (∀ c ∈ ws, isWS c = true) →
      collapseWS true ws = [] := by
  intro ws
  induction ws with
  | nil => intro _; rfl
  | cons c cs ih =>
    intro h
    have hc := h c (List.mem_cons_self c cs)
    simp only [collapseWS, hc, if_true]
    exact ih (fun d hd => h d (List.mem_cons_of_mem c hd))

/-- `collapseWS true` erases a list exactly when the list is all
whitespace. -/
theorem collapseWS_true_eq_nil_iff (xs : List Char) :
    collapseWS true xs = [] ↔ ∀ c ∈ xs, isWS c = true := by
  induction xs with
  | nil => simp [collapseWS]
  | cons c cs ih =>
    by_cases hc : isWS c = true
    · simp only [collapseWS, hc, if_true]
      rw [ih]
      constructor
      · intro h d hd
        rcases List.mem_cons.mp hd with hd | hd
        · rw [hd]; exact hc
        · exact h d hd
      · intro h d hd
        exact h d (List.mem_cons_of_mem c hd)
    · simp only [collapseWS, hc]
      simp only [Bool.false_eq_true, if_false]
      constructor
      · intro h
        exact absurd h (List.cons_ne_nil c _)
      · intro h
        exact absurd (h c (List.mem_cons_self c cs)) hc

/-- `collapseWS false` of a non-empty list is non-empty: its first input
character always emits an output character. -/
theorem collapseWS_false_ne_nil (xs : List Char) (h : xs ≠ []) :
    collapseWS false xs ≠ [] := by
  cases xs with
  | nil => exact absurd rfl h
  | cons c cs =>
    by_cases hc : isWS c = true <;> simp [collapseWS, hc]

/-- Splitting `collapseWS` at an append, with the tracker carried over. -/
theorem collapseWS_append (xs ys : List Char) :
    ∀ b, collapseWS b (xs ++ ys) =
      collapseWS b xs ++ collapseWS (stAfter b xs) ys := by
  induction xs with
  | nil => intro b; rfl
  | cons c cs ih =>
    intro b
    by_cases hc : isWS c = true
    · cases b with
      | true =>
        show collapseWS true (c :: (cs ++ ys)) = _
        simp only [collapseWS, hc, if_true]
        rw [ih true]
        have hst : stAfter true (c :: cs) = stAfter true cs := by
          show stAfter (isWS c) cs = stAfter true cs
          rw [hc]
        rw [hst]
      | false =>
        show collapseWS false (c :: (cs ++ ys)) = _
        simp only [collapseWS, hc, if_true, if_false, Bool.false_eq_true]
        rw [ih true]
        have hst : stAfter false (c :: cs) = stAfter true cs := by
          show stAfter (isWS c) cs = stAfter true cs
          rw [hc]
        rw [hst]
        rfl
    · show collapseWS b (c :: (cs ++ ys)) = _
      simp only [collapseWS, hc, Bool.false_eq_true, if_false]
      rw [ih false]
      have hst : stAfter b (c :: cs) = stAfter false cs := by
        show stAfter (isWS c) cs = stAfter false cs
        rw [Bool.of_not_eq_true hc]
      rw [hst]
      rfl

/-- A cons by a non-whitespace character passes through `collapseWS`
whatever the tracker state. -/
theorem collapseWS_cons_nonWS (c : Char) (hc : isWS c = false)
    (rest : List Char) (b : Bool) :
    collapseWS b (c :: rest) = c :: collapseWS false rest := by
  simp [collapseWS, hc]

/-- A cons by a whitespace character with the tracker outside a run
emits one space and enters the run. -/
theorem collapseWS_cons_ws_false (c : Char) (hc : isWS c = true)
    (rest : List Char) :
    collapseWS false (c :: rest) = ' ' :: collapseWS true rest := by
  simp [collapseWS, hc]

/-- A cons by a whitespace character with the tracker inside a run is
skipped. -/
theorem collapseWS_cons_ws_true (c : Char) (hc : isWS c = true)
    (rest : List Char) :
    collapseWS true (c :: rest) = collapseWS true rest := by
  simp [collapseWS, hc]

/-- A non-empty all-non-whitespace prefix passes through `collapseWS`
verbatim, whatever the tracker state. -/
theorem collapseWS_nonWS_append :
    ∀ (A : List Char), A ≠ [] → (∀ c ∈ A, isWS c = false) →
      ∀ (Z : List Char) (b : Bool),
        collapseWS b (A ++ Z) = A ++ collapseWS false Z := by
  intro A
  induction A with
  | nil => intro h; exact absurd rfl h
  | cons a A' ih =>
    intro _ hA Z b
    have ha := hA a (List.mem_cons_self a A')
    show collapseWS b (a :: (A' ++ Z)) = _
    rw [collapseWS_cons_nonWS a ha _ b]
    cases A' with
    | nil => rfl
    | cons x xs =>
      rw [ih (by simp) (fun c hc => hA c (List.mem_cons_of_mem a hc)) Z
        false]
      rfl

/-- The head of a `collapseWS true` output is never whitespace. -/
theorem collapseWS_true_head :
    ∀ (xs : List Char) (c : Char),
      (collapseWS true xs).head? = some c → isWS c = false := by
  intro xs
  induction xs with
  | nil => intro c h; exact absurd h (by simp [collapseWS])
  | cons d ds ih =>
    intro c h
    by_cases hd : isWS d = true
    · simp only [collapseWS, hd, if_true] at h
      exact ih c h
    · rw [collapseWS_cons_nonWS d (Bool.of_not_eq_true hd) ds true] at h
      simp only [List.head?_cons, Option.some.injEq] at h
      rw [← h]
      exact Bool.of_not_eq_true hd

/-- `collapseWS false` splits as an optional leading space followed by
the `collapseWS true` output. -/
theorem collapseWS_false_split (xs : List Char) :
    collapseWS false xs =
      (match xs.head? with
       | some c => if isWS c then [' '] else []
       | none => ([] : List Char)) ++ collapseWS true xs := by
  cases xs with
  | nil => rfl
  | cons c cs =>
    by_cases hc : isWS c = true
    · simp [collapseWS, hc]
    · simp [collapseWS, hc]

/-- The last character of a `collapseWS` output is non-whitespace
whenever the input's last character is. -/
theorem collapseWS_last_nonWS :
    ∀ (xs : List Char) (b : Bool),
      (∀ c, xs.getLast? = some c → isWS c = false) →
      ∀ c, (collapseWS b xs).getLast? = some c → isWS c = false := by
  intro xs
  induction xs with
  | nil =>
    intro b _ c h
    exact absurd h (by simp [collapseWS])
  | cons d ds ih =>
    intro b hlast c h
    cases ds with
    | nil =>
      have hd : isWS d = false := hlast d rfl
      rw [collapseWS_cons_nonWS d hd [] b] at h
      simp only [collapseWS] at h
      simp only [List.getLast?_singleton, Option.some.injEq] at h
      rw [← h]
      exact hd
    | cons e es =>
      have hlast' : ∀ c, (e :: es).getLast? = some c → isWS c = false := by
        intro c hc
        exact hlast c (by rw [List.getLast?_cons_cons]; exact hc)
      have hne : (e :: es) ≠ ([] : List Char) := by simp
      have hnotall : ¬(∀ c ∈ e :: es, isWS c = true) := by
        intro hall
        have hmem := List.getLast_mem hne
        have := hall _ hmem
        have hl : (e :: es).getLast? = some ((e :: es).getLast hne) :=
          List.getLast?_eq_getLast _ hne
        exact absurd this (by rw [hlast' _ hl]; simp)
      by_cases hd : isWS d = true
      · cases b with
        | true =>
          rw [collapseWS_cons_ws_true d hd] at h
          exact ih true hlast' c h
        | false =>
          rw [collapseWS_cons_ws_false d hd] at h
          have hY : collapseWS true (e :: es) ≠ [] := by
            intro h0
            exact hnotall ((collapseWS_true_eq_nil_iff _).mp h0)
          rcases List.exists_cons_of_ne_nil hY with ⟨y, ys, hy⟩
          rw [hy, List.getLast?_cons_cons, ← hy] at h
          exact ih true hlast' c h
      · rw [collapseWS_cons_nonWS d (Bool.of_not_eq_true hd) _ b] at h
        have hZ : collapseWS false (e :: es) ≠ [] :=
          collapseWS_false_ne_nil _ hne
        rcases List.exists_cons_of_ne_nil hZ with ⟨z, zs, hz⟩
        rw [hz, List.getLast?_cons_cons, ← hz] at h
        exact ih false hlast' c h

/-- Dropping a leading whitespace character before trimming changes
nothing. -/
theorem trimChars_cons_ws (c : Char) (hc : isWS c = true)
    (Y : List Char) : trimChars (c :: Y) = trimChars Y := by
  unfold trimChars trimLeft
  rw [List.dropWhile_cons, if_pos hc]

/-- `dropWhile` is the identity on a list whose members all fail the
predicate. -/
theorem dropWhile_of_all_neg {p : Char → Bool} :
    ∀ (xs : List Char), (∀ c ∈ xs, p c = false) →
      xs.dropWhile p = xs := by
  intro xs h
  cases xs with
  | nil => rfl
  | cons c cs =>
    rw [List.dropWhile_cons, if_neg (by simp [h c (List.mem_cons_self c cs)])]

/-- Trimming is the identity on an all-non-whitespace list. -/
theorem trim_all_nonWS (xs : List Char)
    (h : ∀ c ∈ xs, isWS c = false) : trimChars xs = xs := by
  unfold trimChars trimLeft
  rw [dropWhile_of_all_neg xs h,
    dropWhile_of_all_neg xs.reverse (fun c hc => h c (List.mem_reverse.mp hc)),
    List.reverse_reverse]

/-- Trimming erases an all-whitespace list. -/
theorem trim_allWS (xs : List Char) (h : ∀ c ∈ xs, isWS c = true) :
    trimChars xs = [] := by
  unfold trimChars trimLeft
  rw [List.dropWhile_eq_nil_iff.mpr h]
  rfl

/-- Trimming is the identity when both ends are non-whitespace. -/
theorem trim_eq_self (xs : List Char)
    (hh : ∀ c, xs.head? = some c → isWS c = false)
    (hl : ∀ c, xs.getLast? = some c → isWS c = false) :
    trimChars xs = xs := by
  unfold trimChars trimLeft
  have h1 : xs.dropWhile isWS = xs := by
    cases xs with
    | nil => rfl
    | cons c cs =>
      rw [List.dropWhile_cons, if_neg (by simp [hh c rfl])]
  rw [h1]
  have h2 : xs.reverse.dropWhile isWS = xs.reverse := by
    cases hrev : xs.reverse with
    | nil => rfl
    | cons r rs =>
      have hr : xs.getLast? = some r := by
        rw [← List.head?_reverse, hrev]
        rfl
      rw [List.dropWhile_cons, if_neg (by simp [hl r hr])]
  rw [h2, List.reverse_reverse]

/-- Trimming after a non-empty solid word keeps the word, the separator
space and the trimmed remainder, when the remainder starts solid. -/
theorem trim_append_word (A Y : List Char) (hA : ∀ c ∈ A, isWS c = false)
    (hAne : A ≠ []) (hY : ∀ c, Y.head? = some c → isWS c = false)
    (hYne : Y ≠ []) :
    trimChars (A ++ ' ' :: Y) = A ++ ' ' :: trimChars Y := by
  unfold trimChars trimLeft
  have hYd : Y.dropWhile isWS = Y := by
    cases Y with
    | nil => rfl
    | cons y ys =>
      rw [List.dropWhile_cons, if_neg (by simp [hY y rfl])]
  have h1 : (A ++ ' ' :: Y).dropWhile isWS = A ++ ' ' :: Y := by
    cases A with
    | nil => exact absurd rfl hAne
    | cons a as =>
      rw [List.cons_append, List.dropWhile_cons,
        if_neg (by simp [hA a (List.mem_cons_self a as)])]
  rw [h1, hYd]
  have hYrev : Y.reverse.dropWhile isWS ≠ [] := by
    intro h0
    have hall := List.dropWhile_eq_nil_iff.mp h0
    rcases List.exists_cons_of_ne_nil hYne with ⟨y, ys, hy⟩
    have hymem : y ∈ Y.reverse := by
      rw [hy]
      simp
    have := hall y hymem
    rw [hY y (by rw [hy]; rfl)] at this
    exact Bool.noConfusion this
  have h2 : (A ++ ' ' :: Y).reverse = Y.reverse ++ (' ' :: A.reverse) := by
    rw [List.reverse_append, List.reverse_cons]
    simp
  rw [h2]
  rw [List.dropWhile_append]
  rw [if_neg (by simpa [List.isEmpty_iff] using hYrev)]
  rw [List.reverse_append]
  simp

/-- One-step unfolding of `wordsOf` at a whitespace head. -/
theorem wordsOf_cons_ws (c : Char) (hc : isWS c = true) (cs : List Char) :
    wordsOf (c :: cs) = wordsOf cs := by
  rw [wordsOf]
  simp [hc]

/-- One-step unfolding of `wordsOf` at a solid head. -/
theorem wordsOf_cons_nonWS (c : Char) (hc : isWS c = false)
    (cs : List Char) :
    wordsOf (c :: cs) =
      (c :: cs.takeWhile (fun d => !isWS d)) ::
        wordsOf (cs.dropWhile (fun d => !isWS d)) := by
  rw [wordsOf]
  simp [hc]

/-- Unfolding of `wordsOf` at the empty list. -/
theorem wordsOf_nil : wordsOf [] = [] := by
  rw [wordsOf]

/-- An all-whitespace list has no words. -/
theorem words_allWS : ∀ (xs : List Char),
    (∀ c ∈ xs, isWS c = true) → wordsOf xs = [] := by
  intro xs
  induction xs with
  | nil => intro _; exact wordsOf_nil
  | cons c cs ih =>
    intro h
    rw [wordsOf_cons_ws c (h c (List.mem_cons_self c cs))]
    exact ih (fun d hd => h d (List.mem_cons_of_mem c hd))

/-- A list has no words exactly when it is all whitespace. -/
theorem words_eq_nil_iff : ∀ (n : Nat) (xs : List Char),
    xs.length ≤ n →
      (wordsOf xs = [] ↔ ∀ c ∈ xs, isWS c = true) := by
  intro n
  induction n with
  | zero =>
    intro xs hlen
    have : xs = [] := List.length_eq_zero.mp (Nat.le_zero.mp hlen)
    subst this
    simp [wordsOf]
  | succ n ih =>
    intro xs hlen
    cases xs with
    | nil => simp [wordsOf]
    | cons c cs =>
      by_cases hc : isWS c = true
      · rw [wordsOf_cons_ws c hc]
        rw [ih cs (by simp at hlen; omega)]
        constructor
        · intro h d hd
          rcases List.mem_cons.mp hd with hd | hd
          · rw [hd]; exact hc
          · exact h d hd
        · intro h d hd
          exact h d (List.mem_cons_of_mem c hd)
      · rw [wordsOf_cons_nonWS c (Bool.of_not_eq_true hc)]
        constructor
        · intro h
          exact absurd h (List.cons_ne_nil _ _)
        · intro h
          exact absurd (h c (List.mem_cons_self c cs)) hc

/-- Prepending whitespace does not change the word list. -/
theorem words_ws_append : ∀ (sep : List Char),
    (∀ c ∈ sep, isWS c = true) → ∀ (ys : List Char),
      wordsOf (sep ++ ys) = wordsOf ys := by
  intro sep
  induction sep with
  | nil => intro _ ys; rfl
  | cons c cs ih =>
    intro h ys
    show wordsOf (c :: (cs ++ ys)) = _
    rw [wordsOf_cons_ws c (h c (List.mem_cons_self c cs))]
    exact ih (fun d hd => h d (List.mem_cons_of_mem c hd)) ys

/-- Splitting the word list at an interior whitespace separator. -/
theorem words_append_ws : ∀ (n : Nat) (xs : List Char),
    xs.length ≤ n → ∀ (sep ys : List Char), sep ≠ [] →
      (∀ c ∈ sep, isWS c = true) →
      wordsOf (xs ++ sep ++ ys) = wordsOf xs ++ wordsOf ys := by
  intro n
  induction n with
  | zero =>
    intro xs hlen sep ys hsep hws
    have : xs = [] := List.length_eq_zero.mp (Nat.le_zero.mp hlen)
    subst this
    simp only [List.nil_append, wordsOf]
    exact words_ws_append sep hws ys
  | succ n ih =>
    intro xs hlen sep ys hsep hws
    cases xs with
    | nil =>
      simp only [List.nil_append, wordsOf]
      exact words_ws_append sep hws ys
    | cons c cs =>
      by_cases hc : isWS c = true
      · show wordsOf (c :: (cs ++ sep ++ ys)) = _
        rw [wordsOf_cons_ws c hc, wordsOf_cons_ws c hc,
          ih cs (by simp at hlen; omega) sep ys hsep hws]
      · have hc' : isWS c = false := Bool.of_not_eq_true hc
        show wordsOf (c :: (cs ++ sep ++ ys)) = _
        rw [wordsOf_cons_nonWS c hc', wordsOf_cons_nonWS c hc']
        by_cases hall : (cs.takeWhile (fun d => !isWS d)).length = cs.length
        · have htake : cs.takeWhile (fun d => !isWS d) = cs :=
            (List.takeWhile_sublist _).eq_of_length hall
          have happ := List.takeWhile_append_dropWhile
            (fun d => !isWS d) cs
          rw [htake] at happ
          have hlen0 := congrArg List.length happ
          rw [List.length_append] at hlen0
          have hdrop : cs.dropWhile (fun d => !isWS d) = [] :=
            List.length_eq_zero.mp (by omega)
          rw [List.append_assoc, List.takeWhile_append, if_pos hall]
          have hsep_head : (sep ++ ys).takeWhile (fun d => !isWS d) = [] := by
            rcases List.exists_cons_of_ne_nil hsep with ⟨s, ss, hs⟩
            rw [hs, List.cons_append, List.takeWhile_cons,
              if_neg (by
                simp [hws s (by rw [hs]; exact List.mem_cons_self s ss)])]
          rw [hsep_head, List.dropWhile_append, if_pos (by rw [hdrop]; rfl)]
          have hsep_drop : (sep ++ ys).dropWhile (fun d => !isWS d) =
              sep ++ ys := by
            rcases List.exists_cons_of_ne_nil hsep with ⟨s, ss, hs⟩
            rw [hs, List.cons_append, List.dropWhile_cons,
              if_neg (by
                simp [hws s (by rw [hs]; exact List.mem_cons_self s ss)])]
          rw [hsep_drop, hdrop, words_ws_append sep hws ys, htake]
          simp [wordsOf_nil]
        · have htake : (cs ++ sep ++ ys).takeWhile (fun d => !isWS d) =
              cs.takeWhile (fun d => !isWS d) := by
            rw [List.append_assoc, List.takeWhile_append, if_neg hall]
          have hdne : cs.dropWhile (fun d => !isWS d) ≠ [] := by
            intro h0
            have happ := List.takeWhile_append_dropWhile
              (fun d => !isWS d) cs
            rw [h0, List.append_nil] at happ
            exact hall (by rw [happ])
          have hdrop : (cs ++ sep ++ ys).dropWhile (fun d => !isWS d) =
              cs.dropWhile (fun d => !isWS d) ++ sep ++ ys := by
            rw [List.append_assoc, List.dropWhile_append,
              if_neg (by simpa [List.isEmpty_iff] using hdne),
              List.append_assoc]
          rw [htake, hdrop]
          have hlen2 : (cs.dropWhile (fun d => !isWS d)).length ≤ n := by
            have hsub : List.Sublist (cs.dropWhile (fun d => !isWS d)) cs :=
              List.dropWhile_sublist _
            have := hsub.length_le
            simp at hlen
            omega
          rw [ih _ hlen2 sep ys hsep hws]
          simp

/-- Trimming does not change the word list. -/
theorem words_trim (cs : List Char) :
    wordsOf (trimChars cs) = wordsOf cs := by
  have hlw : cs = cs.takeWhile isWS ++ trimLeft cs :=
    (List.takeWhile_append_dropWhile isWS cs).symm
  have hlw_ws : ∀ c ∈ cs.takeWhile isWS, isWS c = true :=
    fun c hc => List.mem_takeWhile_imp hc
  have hmid : trimLeft cs =
      trimChars cs ++ ((trimLeft cs).reverse.takeWhile isWS).reverse := by
    unfold trimChars
    have h := List.takeWhile_append_dropWhile isWS (trimLeft cs).reverse
    have h2 := congrArg List.reverse h
    rw [List.reverse_append, List.reverse_reverse] at h2
    exact h2.symm
  have htw_ws : ∀ c ∈ ((trimLeft cs).reverse.takeWhile isWS).reverse,
      isWS c = true := by
    intro c hc
    exact List.mem_takeWhile_imp (List.mem_reverse.mp hc)
  conv_rhs => rw [hlw]
  rw [words_ws_append _ hlw_ws, hmid]
  by_cases htw : ((trimLeft cs).reverse.takeWhile isWS).reverse = []
  · rw [htw, List.append_nil]
  · have := words_append_ws (trimChars cs).length (trimChars cs) le_rfl
      _ [] htw htw_ws
    rw [List.append_nil] at this
    rw [this]
    simp [wordsOf]

/-- Wrapper of `words_append_ws` without the fuel argument. -/
theorem words_append_ws' (xs sep ys : List Char) (hsep : sep ≠ [])
    (hws : ∀ c ∈ sep, isWS c = true) :
    wordsOf (xs ++ sep ++ ys) = wordsOf xs ++ wordsOf ys :=
  words_append_ws xs.length xs le_rfl sep ys hsep hws

/-- Interleaving at the empty list of parts. -/
theorem intercalate_nil (s : List Char) :
    List.intercalate s ([] : List (List Char)) = [] := rfl

/-- Interleaving a single part. -/
theorem intercalate_single (s x : List Char) :
    List.intercalate s [x] = x := by
  simp [List.intercalate, List.intersperse]

/-- Interleaving with a non-empty tail of parts. -/
theorem intercalate_cons₂ (s a : List Char) (L : List (List Char))
    (h : L ≠ []) :
    List.intercalate s (a :: L) = a ++ s ++ List.intercalate s L := by
  cases L with
  | nil => exact absurd rfl h
  | cons b L' => simp [List.intercalate, List.intersperse]

/-- The word list of an interleaving by whitespace separators is the
concatenation of the parts' word lists. -/
theorem words_intercalate (s : List Char) (hs : s ≠ [])
    (hws : ∀ c ∈ s, isWS c = true) :
    ∀ (L : List (List Char)),
      wordsOf (List.intercalate s L) = (L.map wordsOf).flatten := by
  intro L
  induction L with
  | nil => rw [intercalate_nil, wordsOf_nil]; rfl
  | cons x L' ih =>
    cases L' with
    | nil =>
      rw [intercalate_single]
      simp
    | cons y L'' =>
      rw [intercalate_cons₂ s x (y :: L'') (by simp),
        words_append_ws' x s _ hs hws, ih]
      simp

/-- Collapsing then trimming one whitespace-separated part keeps the
trimmed remainder (`trim (collapse false ·)` ignores the tracker flag
shift a leading space causes). -/
theorem trim_collapse_false_eq_true (cs : List Char) :
    trimChars (collapseWS false cs) = trimChars (collapseWS true cs) := by
  cases cs with
  | nil => rfl
  | cons c cs' =>
    by_cases hc : isWS c = true
    · rw [collapseWS_cons_ws_false c hc, collapseWS_cons_ws_true c hc,
        trimChars_cons_ws ' ' rfl]
    · have hc' : isWS c = false := Bool.of_not_eq_true hc
      rw [collapseWS_cons_nonWS c hc' cs' false,
        collapseWS_cons_nonWS c hc' cs' true]

/-- Trimming a solid word followed by trailing whitespace keeps exactly
the word. -/
theorem trim_append_ws (A S : List Char) (hA : ∀ c ∈ A, isWS c = false)
    (hAne : A ≠ []) (hS : ∀ c ∈ S, isWS c = true) :
    trimChars (A ++ S) = A := by
  unfold trimChars trimLeft
  have h1 : (A ++ S).dropWhile isWS = A ++ S := by
    cases A with
    | nil => exact absurd rfl hAne
    | cons a as =>
      rw [List.cons_append, List.dropWhile_cons,
        if_neg (by simp [hA a (List.mem_cons_self a as)])]
  rw [h1, List.reverse_append, List.dropWhile_append,
    if_pos (by
      rw [List.dropWhile_eq_nil_iff.mpr
        (fun c hc => hS c (List.mem_reverse.mp hc))]
      rfl),
    dropWhile_of_all_neg A.reverse
      (fun c hc => hA c (List.mem_reverse.mp hc)),
    List.reverse_reverse]

/-- Words normal form: trimming the collapse of any character list gives
its words joined by single spaces. -/
theorem words_normal : ∀ (n : Nat) (xs : List Char), xs.length ≤ n →
    trimChars (collapseWS false xs) =
      List.intercalate [' '] (wordsOf xs) := by
  intro n
  induction n with
  | zero =>
    intro xs hlen
    have : xs = [] := List.length_eq_zero.mp (Nat.le_zero.mp hlen)
    subst this
    rw [wordsOf_nil, intercalate_nil]
    rfl
  | succ n ih =>
    intro xs hlen
    cases xs with
    | nil =>
      rw [wordsOf_nil, intercalate_nil]
      rfl
    | cons c cs =>
      have hcs_len : cs.length ≤ n := by simp at hlen; omega
      by_cases hc : isWS c = true
      · rw [collapseWS_cons_ws_false c hc, trimChars_cons_ws ' ' rfl,
          ← trim_collapse_false_eq_true, ih cs hcs_len,
          wordsOf_cons_ws c hc]
      · have hc' : isWS c = false := Bool.of_not_eq_true hc
        have hsplit : c :: cs =
            (c :: cs.takeWhile (fun d => !isWS d)) ++
              cs.dropWhile (fun d => !isWS d) := by
          rw [List.cons_append, List.takeWhile_append_dropWhile]
        have hAnw : ∀ x ∈ c :: cs.takeWhile (fun d => !isWS d),
            isWS x = false := by
          intro x hx
          rcases List.mem_cons.mp hx with hx | hx
          · rw [hx]; exact hc'
          · have := List.mem_takeWhile_imp hx
            simpa using this
        conv_lhs => rw [hsplit]
        rw [collapseWS_nonWS_append _ (by simp) hAnw _ false,
          wordsOf_cons_nonWS c hc' cs]
        cases hd : cs.dropWhile (fun d => !isWS d) with
        | nil =>
          show trimChars (_ ++ collapseWS false []) = _
          rw [show collapseWS false [] = [] from rfl, List.append_nil,
            trim_all_nonWS _ hAnw, wordsOf_nil, intercalate_single]
        | cons e es =>
          have he : isWS e = true := by
            have h3 := List.head?_dropWhile_not (fun d => !isWS d) cs
            rw [hd] at h3
            simpa using h3
          rw [collapseWS_cons_ws_false e he]
          by_cases hY : collapseWS true es = []
          · have hes_ws := (collapseWS_true_eq_nil_iff es).mp hY
            rw [hY]
            rw [trim_append_ws _ [' '] hAnw (by simp) (by decide)]
            rw [words_allWS (e :: es) (by
              intro x hx
              rcases List.mem_cons.mp hx with hx | hx
              · rw [hx]; exact he
              · exact hes_ws x hx)]
            rw [intercalate_single]
          · have hYhead := collapseWS_true_head es
            rw [trim_append_word _ _ hAnw (by simp) hYhead hY]
            have hlen2 : (e :: es).length ≤ n := by
              have hsub : List.Sublist (cs.dropWhile (fun d => !isWS d)) cs :=
                List.dropWhile_sublist _
              have := hsub.length_le
              rw [hd] at this
              omega
            have hIH := ih (e :: es) hlen2
            rw [collapseWS_cons_ws_false e he, trimChars_cons_ws ' ' rfl]
              at hIH
            have hwd : wordsOf (e :: es) ≠ [] := by
              intro h0
              have hall := (words_eq_nil_iff (e :: es).length (e :: es)
                le_rfl).mp h0
              exact hY (collapseWS_true_allWS es
                (fun x hx => hall x (List.mem_cons_of_mem e hx)))
            rw [hIH, intercalate_cons₂ [' '] _ _ hwd]
            simp

/-- Wrapper of `words_normal` without the fuel argument. -/
theorem trim_collapse_eq_words (xs : List Char) :
    trimChars (collapseWS false xs) =
      List.intercalate [' '] (wordsOf xs) :=
  words_normal xs.length xs le_rfl

/-- The first character of a trimmed list is never whitespace. -/
theorem trim_head_nonWS (cs : List Char) :
    ∀ c, (trimChars cs).head? = some c → isWS c = false := by
  intro c h
  have hmid : trimLeft cs =
      trimChars cs ++ ((trimLeft cs).reverse.takeWhile isWS).reverse := by
    unfold trimChars
    have h0 := List.takeWhile_append_dropWhile isWS (trimLeft cs).reverse
    have h2 := congrArg List.reverse h0
    rw [List.reverse_append, List.reverse_reverse] at h2
    exact h2.symm
  have h2 : (trimLeft cs).head? = some c := by
    rw [hmid, List.head?_append, h]
    rfl
  have h3 := List.head?_dropWhile_not isWS cs
  unfold trimLeft at h2
  rw [h2] at h3
  exact h3

/-- The last character of a trimmed list is never whitespace. -/
theorem trim_last_nonWS (cs : List Char) :
    ∀ c, (trimChars cs).getLast? = some c → isWS c = false := by
  intro c h
  unfold trimChars at h
  rw [List.getLast?_reverse] at h
  have h3 := List.head?_dropWhile_not isWS (trimLeft cs).reverse
  rw [h] at h3
  exact h3

/-- A non-whitespace head passes through `collapseWS false` as the output
head. -/
theorem collapseWS_false_head (xs : List Char)
    (hh : ∀ c, xs.head? = some c → isWS c = false) :
    ∀ c, (collapseWS false xs).head? = some c → isWS c = false := by
  intro c h
  cases xs with
  | nil => exact absurd h (by simp [collapseWS])
  | cons x xs' =>
    have hx : isWS x = false := hh x rfl
    rw [collapseWS_cons_nonWS x hx xs' false] at h
    simp only [List.head?_cons, Option.some.injEq] at h
    rw [← h]
    exact hx

/-- `collapseWS` never emits two consecutive whitespace characters. -/
theorem collapseWS_chain : ∀ (xs : List Char) (b : Bool),
    (collapseWS b xs).Chain'
      (fun a c => ¬(isWS a = true ∧ isWS c = true)) := by
  intro xs
  induction xs with
  | nil =>
    intro b
    exact List.chain'_nil
  | cons c cs ih =>
    intro b
    by_cases hc : isWS c = true
    · cases b with
      | false =>
        rw [collapseWS_cons_ws_false c hc, List.chain'_cons']
        refine ⟨?_, ih true⟩
        intro y hy hcon
        have hy' := collapseWS_true_head cs y hy
        rw [hy'] at hcon
        exact Bool.noConfusion hcon.2
      | true =>
        rw [collapseWS_cons_ws_true c hc]
        exact ih true
    · rw [collapseWS_cons_nonWS c (Bool.of_not_eq_true hc), List.chain'_cons']
      refine ⟨?_, ih false⟩
      intro y _ hcon
      exact hc hcon.1

/-- The head of an interleaving whose first part is non-empty is that
part's head. -/
theorem intercalate_head (s : List Char) (t : List Char)
    (L : List (List Char)) (ht : t ≠ []) :
    (List.intercalate s (t :: L)).head? = t.head? := by
  rcases List.exists_cons_of_ne_nil ht with ⟨a, ta, hta⟩
  cases L with
  | nil => rw [intercalate_single]
  | cons u L' =>
    rw [intercalate_cons₂ s t (u :: L') (by simp), hta]
    rfl

/-- The last of an interleaving whose last part is non-empty is that
part's last. -/
theorem intercalate_getLast :
    ∀ (L : List (List Char)) (s t : List Char), L.getLast? = some t →
      t ≠ [] → (List.intercalate s L).getLast? = t.getLast? := by
  intro L
  induction L with
  | nil =>
    intro s t h
    exact absurd h (by simp)
  | cons x L' ih =>
    intro s t h ht
    cases L' with
    | nil =>
      simp only [List.getLast?_singleton, Option.some.injEq] at h
      rw [intercalate_single, h]
    | cons y L'' =>
      rw [List.getLast?_cons_cons] at h
      rw [intercalate_cons₂ s x (y :: L'') (by simp),
        List.getLast?_append, ih s t h ht]
      rw [List.getLast?_eq_getLast t ht]
      rfl

/-- C7 counterexample: the code strips each part before joining, so a
non-empty whitespace-only part (here the description `" "`) leaves a
stray separator space in the blob — `to_text_blob` produces `"a "` where
the spec formula `lowercase(collapse-whitespace(join(non-empty parts)))`
produces `"a"`, refuting the claimed equality. -/
theorem C7_counterexample_blank_part :
    to_text_blob "a" " " [] [] "" "" "" = "a " ∧
      textBlobSpec "a" " " [] [] "" "" "" = "a" ∧
      to_text_blob "a" " " [] [] "" "" "" ≠
        textBlobSpec "a" " " [] [] "" "" "" := by
  refine ⟨rfl, rfl, by decide⟩

/-- C7 amended: the blob construction is deterministic (a pure function
of its inputs), and for every input the produced blob is normalized — no
two consecutive whitespace characters and no ASCII uppercase letters;
moreover, whenever no part is a non-empty whitespace-only string, the
blob equals the lowercase, whitespace-collapsed (trimmed) single-space
join of the non-empty parts in order (the spec formula).  Whitespace-only
parts are the sole exception, contributing a stray separator space. -/
theorem C7_text_blob_amended (title desc : String)
    (tags fields : List String) (project owner additional : String) :
    ((to_text_blob title desc tags fields project owner
          additional).data.Chain'
        (fun a b => ¬(isWS a = true ∧ isWS b = true)) ∧
      ∀ c ∈ (to_text_blob title desc tags fields project owner
          additional).data,
        c.toNat < 65 ∨ 90 < c.toNat) ∧
    ((∀ p ∈ textParts title desc tags fields project owner additional,
        p ≠ "" → pyStrip p ≠ "") →
      to_text_blob title desc tags fields project owner additional =
        textBlobSpec title desc tags fields project owner additional) := by
  refine ⟨⟨?_, ?_⟩, ?_⟩
  · show (lowerChars (collapseWS false _)).Chain' _
    unfold lowerChars
    rw [List.chain'_map]
    refine (collapseWS_chain _ false).imp ?_
    intro a b h hcon
    rw [isWS_toLower, isWS_toLower] at hcon
    exact h hcon
  · intro c hc
    have hc2 : c ∈ lowerChars (collapseWS false _) := hc
    unfold lowerChars at hc2
    rcases List.mem_map.mp hc2 with ⟨c0, _, hc0⟩
    rw [← hc0]
    exact toLower_not_upper c0
  · intro hyp
    have hsolid : ∀ p ∈ (textParts title desc tags fields project owner
        additional).filter (fun p => p ≠ ""),
        trimChars p.data ≠ [] := by
      intro p hp
      have hp2 := List.mem_filter.mp hp
      have hpne : p ≠ "" := by simpa using hp2.2
      intro h0
      apply hyp p hp2.1 hpne
      unfold pyStrip
      rw [h0]
    unfold to_text_blob textBlobSpec
    refine congrArg String.mk (congrArg lowerChars ?_)
    generalize hT : (textParts title desc tags fields project owner
        additional).filter (fun p => p ≠ "") = T
    rw [hT] at hsolid
    have hwords : wordsOf (List.intercalate sepChars
        (T.map (fun p => trimChars p.data))) =
        wordsOf (List.intercalate [' '] (T.map String.data)) := by
      rw [words_intercalate sepChars (by decide) (by decide),
        words_intercalate [' '] (by decide) (by decide),
        List.map_map, List.map_map]
      have hfun : (wordsOf ∘ fun p : String => trimChars p.data) =
          (wordsOf ∘ String.data) := by
        funext p
        exact words_trim p.data
      rw [hfun]
    cases T with
    | nil => rfl
    | cons p₀ T' =>
      have hts0 : trimChars p₀.data ≠ [] :=
        hsolid p₀ (List.mem_cons_self _ _)
      have hmapc : (p₀ :: T').map (fun p => trimChars p.data) =
          trimChars p₀.data :: T'.map (fun p => trimChars p.data) := rfl
      have htsne : (p₀ :: T').map (fun p => trimChars p.data) ≠ [] := by
        rw [hmapc]
        simp
      have hI_head : ∀ c,
          (List.intercalate sepChars
            ((p₀ :: T').map (fun p => trimChars p.data))).head? = some c →
          isWS c = false := by
        intro c h
        rw [hmapc, intercalate_head sepChars _ _ hts0] at h
        exact trim_head_nonWS p₀.data c h
      have hlast_mem : ((p₀ :: T').map
          (fun p => trimChars p.data)).getLast htsne ∈
          (p₀ :: T').map (fun p => trimChars p.data) :=
        List.getLast_mem htsne
      rcases List.mem_map.mp hlast_mem with ⟨q, hq, hq2⟩
      have htl_ne : ((p₀ :: T').map
          (fun p => trimChars p.data)).getLast htsne ≠ [] := by
        rw [← hq2]
        exact hsolid q hq
      have hI_last : ∀ c,
          (List.intercalate sepChars
            ((p₀ :: T').map (fun p => trimChars p.data))).getLast? =
            some c → isWS c = false := by
        intro c h
        rw [intercalate_getLast _ sepChars _
          (List.getLast?_eq_getLast _ htsne) htl_ne, ← hq2] at h
        exact trim_last_nonWS q.data c h
      have hself := trim_eq_self
        (collapseWS false (List.intercalate sepChars
          ((p₀ :: T').map (fun p => trimChars p.data))))
        (collapseWS_false_head _ hI_head)
        (collapseWS_last_nonWS _ false hI_last)
      rw [← hself, trim_collapse_eq_words, trim_collapse_eq_words, hwords]

/-- Witness for C7 at a concrete input with padded and mixed-case parts,
none of them whitespace-only: the code's blob equals the spec formula. -/
theorem C7_witness :
    to_text_blob " A  b" "c " ["T1", "t2"] [] "P" "O" "wb A" =
      textBlobSpec " A  b" "c " ["T1", "t2"] [] "P" "O" "wb A" :=
  (C7_text_blob_amended " A  b" "c " ["T1", "t2"] [] "P" "O" "wb A").2
    (by decide)

end RWA
